import Mathlib

set_option maxHeartbeats 1000000
set_option linter.unusedVariables false

/-!
Shallow embedding of the fiat-rates cron job (`src/src/main.js`), together
with theorems checking the natural-language specification against it.

The job's own logic (retrying fetcher, paginated crypto fetcher,
transformer, sanity check, upsert chains, env check, migration loop) is
translated from the source.  The external Appwrite document store and the
JavaScript runtime primitives the source calls (`Object.fromEntries`,
`Number`, `Math.max`, truthiness of env strings) are modelled explicitly;
each such model carries a doc comment saying what it stands for.
-/

namespace FiatCron

variable {α β γ : Type}

/-- Model of one Appwrite document: a string identifier, the `date`
attribute the job queries on, and the remaining payload attributes. -/
structure Doc (β : Type) where
  id : String
  date : String
  body : β
deriving DecidableEq, Repr

/-- Model of the external Appwrite collection (an ordered list of
documents) together with two capability flags: `queryOk` — whether the
list-by-equality query on the `date` attribute succeeds (the source
catches query failures such as a missing schema attribute or index), and
`writeOk` — whether the store accepts writes at all (a write failure mode
such as missing permissions or schema mismatch, needed to reach the
terminal error branches of the source's upsert chains). -/
structure Store (β : Type) where
  docs : List (Doc β)
  queryOk : Bool
  writeOk : Bool
deriving DecidableEq, Repr

/-- Record submitted to the store: the `date` attribute plus payload. -/
structure DocData (β : Type) where
  date : String
  body : β
deriving DecidableEq, Repr

/-- Documents of a list whose `date` attribute equals `d`, in order. -/
def filterByDate (docs : List (Doc β)) (d : String) : List (Doc β) :=
  docs.filter (fun x => decide (x.date = d))

/-- Documents whose `date` attribute equals `d`, in store order: the result
of `listDocuments(.., [Query.equal("date", d)])` when the query works. -/
def dateFilter (s : Store β) (d : String) : List (Doc β) :=
  filterByDate s.docs d

/-- Number of documents carrying date `d` — the per-date snapshot count. -/
def countDate (s : Store β) (d : String) : Nat :=
  (dateFilter s d).length

/-- Whether a document with identifier `i` exists. -/
def hasId (s : Store β) (i : String) : Bool :=
  s.docs.any (fun x => decide (x.id = i))

/-- `db.listDocuments(dbId, collId, [Query.equal("date", d)])`: returns the
matching documents, or throws when the query capability is unavailable. -/
def listByDate (s : Store β) (d : String) : Except String (List (Doc β)) :=
  if s.queryOk then .ok (dateFilter s d) else .error "query failed"

/-- Replace the attributes of the document with identifier `i`. -/
def replaceDoc (docs : List (Doc β)) (i : String) (r : DocData β) : List (Doc β) :=
  docs.map (fun x => if x.id = i then { id := x.id, date := r.date, body := r.body } else x)

/-- `db.createDocument`: fails when writes are rejected or the identifier
already exists, otherwise appends the new document. -/
def createDocument (s : Store β) (i : String) (r : DocData β) : Except String (Store β) :=
  if s.writeOk = false then .error "write failed"
  else if hasId s i then .error "document already exists"
  else .ok { s with docs := s.docs ++ [{ id := i, date := r.date, body := r.body }] }

/-- `db.updateDocument`: fails when writes are rejected or the identifier
is absent, otherwise updates the document in place. -/
def updateDocument (s : Store β) (i : String) (r : DocData β) : Except String (Store β) :=
  if s.writeOk = false then .error "write failed"
  else if hasId s i then .ok { s with docs := replaceDoc s.docs i r }
  else .error "document not found"

/-- Primary-store rates upsert, `src/src/main.js` lines 295-359.  The
`try` block queries by date and updates the first match (`documents[0]`)
or creates a fresh-id document; on any failure in that block the `catch`
falls back to using the date string as the identifier: create, and if that
fails update, and if that also fails the final error surfaces. -/
def upsertRates (s : Store β) (newId dateStr : String) (body : β) :
    Except String (Store β × String) :=
  let r : DocData β := { date := dateStr, body := body }
  let primary : Except String (Store β × String) :=
    match listByDate s dateStr with
    | .error e => .error e
    | .ok todaySearch =>
      match todaySearch.head? with
      | some d0 =>
        match updateDocument s d0.id r with
        | .ok s2 => .ok (s2, d0.id)
        | .error e => .error e
      | none =>
        match createDocument s newId r with
        | .ok s2 => .ok (s2, newId)
        | .error e => .error e
  match primary with
  | .ok out => .ok out
  | .error _ =>
    match createDocument s dateStr r with
    | .ok s2 => .ok (s2, dateStr)
    | .error _ =>
      match updateDocument s dateStr r with
      | .ok s2 => .ok (s2, dateStr)
      | .error e3 => .error e3

/-- Metadata-store upsert, `src/src/main.js` lines 362-394: create with
the date string as identifier, on failure update, and surface the second
failure. -/
def upsertMeta (s : Store β) (dateStr : String) (body : β) : Except String (Store β) :=
  let payload : DocData β := { date := dateStr, body := body }
  match createDocument s dateStr payload with
  | .ok s2 => .ok s2
  | .error _ =>
    match updateDocument s dateStr payload with
    | .ok s2 => .ok s2
    | .error e2 => .error e2

/-- Condition under which the at-most-one-snapshot invariant survives an
upsert: either the date query works, or every record carrying the date key
is keyed by the date string itself (the fallback path's own convention). -/
def goodFor (s : Store β) (d : String) : Prop :=
  s.queryOk = true ∨ ∀ x ∈ s.docs, x.date = d → x.id = d

/-! ### Retrying HTTP fetcher (`fetchWithRetry`, lines 21-51) -/

instance {ε δ : Type} [DecidableEq ε] [DecidableEq δ] : DecidableEq (Except ε δ) := fun x y =>
  match x, y with
  | .ok a, .ok b =>
    if h : a = b then .isTrue (by rw [h]) else .isFalse (by intro he; cases he; exact h rfl)
  | .error a, .error b =>
    if h : a = b then .isTrue (by rw [h]) else .isFalse (by intro he; cases he; exact h rfl)
  | .ok _, .error _ => .isFalse (by intro h; cases h)
  | .error _, .ok _ => .isFalse (by intro h; cases h)

/-- Outcome of a `fetchWithRetry` run: the returned parsed body or the
propagated error, the number of attempts performed, and the waits (in
milliseconds) slept between attempts, in order. -/
structure RetryOut (γ : Type) where
  result : Except String γ
  attempts : Nat
  waitsMs : List Nat
deriving DecidableEq, Repr

/-- Loop of `fetchWithRetry`: `oracle a` is the outcome of the `a`-th HTTP
attempt (a parsed JSON body, or a non-success status / network / timeout
error).  `remaining` counts the attempts still allowed including the
current one; on failure with attempts left it sleeps `2 ^ attempt * 1000`
milliseconds and retries, after the final failed attempt the error
propagates.  With zero attempts allowed the JS loop body never runs (the
function returns `undefined`); that case is marked "no attempts". -/
def retryGo (oracle : Nat → Except String γ) : Nat → Nat → RetryOut γ
  | 0, _ => { result := .error "no attempts", attempts := 0, waitsMs := [] }
  | remaining + 1, attempt =>
    match oracle attempt with
    | .ok v => { result := .ok v, attempts := 1, waitsMs := [] }
    | .error e =>
      if remaining = 0 then { result := .error e, attempts := 1, waitsMs := [] }
      else
        let rest := retryGo oracle remaining (attempt + 1)
        { result := rest.result, attempts := rest.attempts + 1,
          waitsMs := 2 ^ attempt * 1000 :: rest.waitsMs }

/-- `fetchWithRetry(url, opts, max, log, timeoutMs)`: attempts start at 1. -/
def fetchWithRetry (oracle : Nat → Except String γ) (maxAttempts : Nat) : RetryOut γ :=
  retryGo oracle maxAttempts 1

/-! ### Crypto market data fetcher (`fetchCryptoMarketData`, lines 433-474) -/

/-- Model of a JavaScript number as used for the page cap: either NaN or
an integer.  (`CRYPTORANK_MAX_PAGES` values that denote other numbers are
outside the scope of this model.) -/
inductive JNum where
  | nan
  | int (n : Int)
deriving DecidableEq, Repr

/-- `Math.max(1, x)`: NaN is absorbing. -/
def jsMax1 : JNum → JNum
  | .nan => .nan
  | .int n => .int (max 1 n)

/-- The JS comparison `pageCount >= maxPages`: always false against NaN. -/
def capReached (pageCount : Nat) : JNum → Bool
  | .nan => false
  | .int m => decide (m ≤ (pageCount : Int))

/-- Value of a decimal-digit string. -/
def digitsToNat (s : String) : Nat :=
  s.data.foldl (fun n c => n * 10 + (c.toNat - 48)) 0

/-- Model of the JS `Number(string)` conversion on the inputs this model
covers: the empty string converts to 0, a nonempty all-decimal-digit
string to its value, and any other string does not parse as a number and
yields NaN.  (Signs, fractions, exponents, hex and `Infinity` literals are
outside the scope of this model.) -/
def jsNumberOfString (s : String) : JNum :=
  if s = "" then .int 0
  else if s.data.all (fun c => c.isDigit) then .int (Int.ofNat (digitsToNat s))
  else .nan

/-- JS truthiness of an environment value: absent or empty is falsy. -/
def truthy : Option String → Bool
  | none => false
  | some s => s != ""

/-- `Math.max(1, Number(maxPagesEnv ?? 10))`, line 446. -/
def capOfEnv (maxPagesEnv : Option String) : JNum :=
  jsMax1 (match maxPagesEnv with
    | none => .int 10
    | some s => jsNumberOfString s)

/-- Pagination loop of `fetchCryptoMarketData`.  `pages skip` is the
outcome of the `GET ?limit=100&skip=<skip>` request (itself a retried
fetch): the page's rows, or the propagated fetch error.  Returns the
concatenated rows and the list of `skip` offsets requested, or `none`
when `fuel` runs out before the loop stops (the loop has no bound of its
own beside the short-page test and the cap test). -/
def cryptoGo (pages : Nat → Except String (List γ)) (cap : JNum) :
    Nat → Nat → Nat → Option (Except String (List γ) × List Nat)
  | 0, _, _ => none
  | fuel + 1, pageCount, skip =>
    let pc := pageCount + 1
    match pages skip with
    | .error e => some (.error e, [skip])
    | .ok data =>
      if data.length < 100 then some (.ok data, [skip])
      else if capReached pc cap then some (.ok data, [skip])
      else
        match cryptoGo pages cap fuel pc (skip + 100) with
        | none => none
        | some (.error e, offs) => some (.error e, skip :: offs)
        | some (.ok rest, offs) => some (.ok (data ++ rest), skip :: offs)

/-- `fetchCryptoMarketData(log, logError, apiKey, maxPagesEnv)`: a falsy
API key skips crypto entirely (empty result, no request); otherwise the
loop starts at `skip = 0`, `pageCount = 0`. -/
def fetchCryptoMarketData (apiKey : Option String) (maxPagesEnv : Option String)
    (pages : Nat → Except String (List γ)) (fuel : Nat) :
    Option (Except String (List γ) × List Nat) :=
  if truthy apiKey = false then some (.ok [], [])
  else cryptoGo pages (capOfEnv maxPagesEnv) fuel 0 0

/-! ### Transformer (lines 237-263) -/

/-- One entry of the fiat API's keyed-by-code map: the destructured
`{ value }` field. -/
structure FiatEntry (α : Type) where
  value : α
deriving DecidableEq, Repr

/-- `Object.entries(fiatJson?.data ?? {}).map(([code, { value }]) =>
[code, value])`; the association list carries the object's iteration
order. -/
def transformFiat (data : List (String × FiatEntry α)) : List (String × α) :=
  data.map (fun p => (p.1, p.2.value))

/-- One crypto API row.  `extra` stands for any further source fields not
copied into the metadata record. -/
structure CryptoRow (α : Type) where
  symbol : String
  price : α
  id : String
  name : String
  rank : α
  type : String
  lastUpdated : String
  totalSupply : α
  maxSupply : α
  circulatingSupply : α
  high24h : α
  low24h : α
  volume24h : α
  marketCap : α
  ath : String
  atl : String
  images : String
  extra : List (String × String)
deriving DecidableEq, Repr

/-- The enumerated field subset stored per symbol (lines 244-261). -/
structure MetaRecord (α : Type) where
  id : String
  name : String
  rank : α
  type : String
  lastUpdated : String
  totalSupply : α
  maxSupply : α
  circulatingSupply : α
  price : α
  high24h : α
  low24h : α
  volume24h : α
  marketCap : α
  ath : String
  atl : String
  images : String
deriving DecidableEq, Repr

/-- Projection of a row to the enumerated metadata fields. -/
def metaOf (c : CryptoRow α) : MetaRecord α :=
  { id := c.id, name := c.name, rank := c.rank, type := c.type,
    lastUpdated := c.lastUpdated, totalSupply := c.totalSupply,
    maxSupply := c.maxSupply, circulatingSupply := c.circulatingSupply,
    price := c.price, high24h := c.high24h, low24h := c.low24h,
    volume24h := c.volume24h, marketCap := c.marketCap, ath := c.ath,
    atl := c.atl, images := c.images }

/-- `cryptoRaw.map((c) => [c.symbol, c.price])`. -/
def cryptoRatesOf (rows : List (CryptoRow α)) : List (String × α) :=
  rows.map (fun c => (c.symbol, c.price))

/-- Adding one entry to a JS object under construction: an existing key
keeps its position but takes the new value, a new key is appended. -/
def insertEntry (acc : List (String × γ)) (e : String × γ) : List (String × γ) :=
  if acc.any (fun p => decide (p.1 = e.1)) then
    acc.map (fun p => if p.1 = e.1 then e else p)
  else acc ++ [e]

/-- Model of `Object.fromEntries`: entries are inserted left to right, so
a duplicated key keeps its first position and last value. -/
def fromEntries (l : List (String × γ)) : List (String × γ) :=
  l.foldl insertEntry []

/-- `Object.fromEntries(cryptoRaw.map((c) => [c.symbol, {...}]))`. -/
def cryptoMetaOf (rows : List (CryptoRow α)) : List (String × MetaRecord α) :=
  fromEntries (rows.map (fun c => (c.symbol, metaOf c)))

/-- Property lookup on a modelled JS object. -/
def alLookup (l : List (String × γ)) (k : String) : Option γ :=
  (l.find? (fun p => decide (p.1 = k))).map (fun p => p.2)

/-- Value of the last entry with key `k`. -/
def lastValueFor (l : List (String × γ)) (k : String) : Option γ :=
  ((l.filter (fun p => decide (p.1 = k))).getLast?).map (fun p => p.2)

/-- Keys in first-occurrence order with duplicates dropped. -/
def firstDedup : List String → List String
  | [] => []
  | k :: rest => k :: (firstDedup rest).filter (fun x => !(decide (x = k)))

/-! ### Sanity check (lines 265-280) -/

/-- Required fiat codes. -/
def mustHaveFiat : List String := ["USD", "EUR", "RUB"]

/-- `mustHaveFiat.filter((c) => !fiatRates.some(([code]) => code === c))`. -/
def missingFiatOf (fiatRates : List (String × α)) : List String :=
  mustHaveFiat.filter (fun c => !(fiatRates.any (fun p => decide (p.1 = c))))

/-- `cryptoRates.some(([sym]) => sym === "BTC")`. -/
def hasBTCOf (cryptoRates : List (String × α)) : Bool :=
  cryptoRates.any (fun p => decide (p.1 = "BTC"))

/-! ### Environment (lines 111-143) -/

/-- The environment values destructured from `process.env`; each may be
absent, and per JS truthiness an empty string counts as absent. -/
structure Env where
  PROJECT_ID : Option String
  APPWRITE_API_KEY : Option String
  RATES_API_KEY : Option String
  RATES1_DATABASE_ID : Option String
  RATES_COMBINED_COLLECTION_ID : Option String
  CRYPTORANK_API_KEY : Option String
  CRYPTOMETA_DATABASE_ID : Option String
  CRYPTOMETA_COLLECTION_ID : Option String
  CRYPTORANK_MAX_PAGES : Option String
  MIGRATE_TO_NEW_DB : Option String
  DATABASE_ID : Option String
  COLLECTION_ID : Option String

/-- The `missingEnv` list built by the chain of pushes in lines 126-134,
in the same order. -/
def missingEnv (e : Env) : List String :=
  (if truthy e.PROJECT_ID then [] else ["PROJECT_ID"]) ++
  (if truthy e.APPWRITE_API_KEY then [] else ["APPWRITE_API_KEY"]) ++
  (if truthy e.RATES_API_KEY then [] else ["RATES_API_KEY"]) ++
  (if truthy e.RATES1_DATABASE_ID then [] else ["RATES1_DATABASE_ID"]) ++
  (if truthy e.RATES_COMBINED_COLLECTION_ID then [] else ["RATES_COMBINED_COLLECTION_ID"]) ++
  (if truthy e.CRYPTOMETA_DATABASE_ID then [] else ["CRYPTOMETA_DATABASE_ID"]) ++
  (if truthy e.CRYPTOMETA_COLLECTION_ID then [] else ["CRYPTOMETA_COLLECTION_ID"])

/-! ### Migration (`migrateFromOldToNewDatabases`, lines 500-581) -/

/-- A field of a legacy document: absent, already a string, or a raw
(non-string) JSON value carried here by its serialization. -/
inductive JField where
  | absent
  | str (s : String)
  | raw (json : String)
deriving DecidableEq, Repr

/-- `typeof f === "string" ? f : JSON.stringify(f ?? dflt)` where `dflt`
serializes to the given default text. -/
def normalizeField (f : JField) (dflt : String) : String :=
  match f with
  | .str s => s
  | .raw j => j
  | .absent => dflt

/-- A legacy record of the old collection. -/
structure OldDoc where
  id : String
  date : Option String
  fiatRates : JField
  cryptoRates : JField
deriving DecidableEq, Repr

/-- `doc.date || doc.$id`: the date field unless it is absent or empty. -/
def dateOrId (d : OldDoc) : String :=
  match d.date with
  | some s => if s = "" then d.id else s
  | none => d.id

/-- Per-record upsert of the migration loop (lines 541-565): look up by
date in the new rates store, update the first match or create under a
fresh identifier.  Unlike the main upsert there is no fallback; any
failure is the caller's to catch. -/
def migrateUpsertOne (s : Store (String × String)) (uid : String) (d : String)
    (body : String × String) : Except String (Store (String × String)) :=
  match listByDate s d with
  | .error e => .error e
  | .ok existing =>
    match existing.head? with
    | some x => updateDocument s x.id { date := d, body := body }
    | none => createDocument s uid { date := d, body := body }

/-- State threaded through the migration loop: the new rates store, the
`scanned` and `movedRates` counters, the dates whose upsert failed (these
are logged and skipped), every date attempted in order, and an index into
the fresh-identifier supply. -/
structure MigState where
  store : Store (String × String)
  scanned : Nat
  moved : Nat
  failedDates : List String
  attempted : List String
  uidIdx : Nat
deriving DecidableEq, Repr

/-- Processing of one legacy record (lines 526-573): derive the logical
date, normalize the rates fields, try the upsert, and on failure log and
continue. -/
def migrateDoc (uid : Nat → String) (st : MigState) (d : OldDoc) : MigState :=
  let migratedDate := dateOrId d
  let body := (normalizeField d.fiatRates "\x7b\x7d", normalizeField d.cryptoRates "[]")
  match migrateUpsertOne st.store (uid st.uidIdx) migratedDate body with
  | .ok s2 =>
    { store := s2, scanned := st.scanned + 1, moved := st.moved + 1,
      failedDates := st.failedDates, attempted := st.attempted ++ [migratedDate],
      uidIdx := st.uidIdx + 1 }
  | .error _ =>
    { store := st.store, scanned := st.scanned + 1, moved := st.moved,
      failedDates := st.failedDates ++ [migratedDate],
      attempted := st.attempted ++ [migratedDate], uidIdx := st.uidIdx + 1 }

/-- Result of a migration run. -/
structure MigOut where
  store : Store (String × String)
  scanned : Nat
  moved : Nat
  failedDates : List String
  attempted : List String
  pagesFetched : Nat
deriving DecidableEq, Repr

/-- Page loop of the migration (lines 520-577).  Cursor-after pagination
over a fixed snapshot of the old collection is represented by the
`remaining` suffix of its document list: each round fetches a page of up
to 100 records, stops on an empty page, otherwise processes the page and
stops if it was short, else continues after the cursor. -/
def migrateGo (uid : Nat → String) (st : MigState) (pages : Nat)
    (remaining : List OldDoc) : MigOut :=
  let page := remaining.take 100
  if h : page = [] then
    { store := st.store, scanned := st.scanned, moved := st.moved,
      failedDates := st.failedDates, attempted := st.attempted,
      pagesFetched := pages + 1 }
  else
    let st2 := page.foldl (migrateDoc uid) st
    if page.length < 100 then
      { store := st2.store, scanned := st2.scanned, moved := st2.moved,
        failedDates := st2.failedDates, attempted := st2.attempted,
        pagesFetched := pages + 1 }
    else migrateGo uid st2 (pages + 1) (remaining.drop 100)
termination_by remaining.length
decreasing_by
  have hne : remaining ≠ [] := fun hr => h (by subst hr; rfl)
  have hlen : 0 < remaining.length := List.length_pos.mpr hne
  have hd : (remaining.drop 100).length = remaining.length - 100 :=
    List.length_drop 100 remaining
  omega

/-- `migrateFromOldToNewDatabases` restricted to the configured case
(lines 514-581): page through the legacy records and upsert each into the
new rates store, tolerating per-record failures. -/
def migrate (uid : Nat → String) (old : List OldDoc)
    (s : Store (String × String)) : MigOut :=
  migrateGo uid { store := s, scanned := 0, moved := 0, failedDates := [],
                  attempted := [], uidIdx := 0 } 0 old

/-! ### The whole run (`fetchAndSaveRates`, lines 84-430) -/

/-- Structured outcome of a run, mirroring the `errRes` / `okRes` payloads
of the source. -/
inductive RunResult where
  | missingEnvError (names : List String)
  | fiatFetchFailed (reason : String)
  | cryptoFetchFailed (reason : String)
  | sanityFailed (missingFiat : List String) (hasBTC : Bool)
  | ratesUpsertFailed (e : String)
  | metaUpsertFailed (e : String)
  | success (ratesDocId : String)
deriving DecidableEq, Repr

/-- Observable outcome of a run: the result payload, the final state of
the two stores, the number of HTTP fetches issued (the fiat fetch counts
as one, each crypto page as one), whether execution reached the upsert
stage, and whether the `skip cryptoMeta upsert` branch was taken. -/
structure RunOut where
  result : RunResult
  ratesStore : Store (String × String)
  metaStore : Store String
  networkCalls : Nat
  reachedUpsert : Bool
  metaSkipped : Bool
deriving DecidableEq, Repr

/-- External inputs of one run: the outcome of the fiat fetch, the crypto
page oracle with its fuel, the date key (`toLocaleDateString("en-GB")`
with slashes removed), the fresh identifier from `ID.unique()` for the
rates create, the fresh-identifier supply for migration creates, the
legacy documents, the two store states, and the JSON serializers (opaque
here because no claim inspects serialized text). -/
structure World (α : Type) where
  fiatResult : Except String (List (String × FiatEntry α))
  cryptoPages : Nat → Except String (List (CryptoRow α))
  fuel : Nat
  ratesStore : Store (String × String)
  metaStore : Store String
  dateStr : String
  newRatesId : String
  migUids : Nat → String
  oldDocs : List OldDoc
  encFiat : List (String × α) → String
  encCrypto : List (String × α) → String
  encMeta : List (String × MetaRecord α) → String

/-- The optional migration stage (lines 399-421): runs only when
`MIGRATE_TO_NEW_DB === "1"`, and inside `migrateFromOldToNewDatabases`
returns immediately unless the legacy database and collection ids are
configured.  A migration crash is caught, so only the store state
escapes. -/
def migrationStage (env : Env) (w : World α) (rs : Store (String × String)) :
    Store (String × String) :=
  if env.MIGRATE_TO_NEW_DB = some "1" then
    if truthy env.DATABASE_ID && truthy env.COLLECTION_ID then
      (migrate w.migUids w.oldDocs rs).store
    else rs
  else rs

/-- The run pipeline of `fetchAndSaveRates`: env check, parallel fiat and
crypto fetches (both settle; fiat failure is reported first), transform,
sanity check, rates upsert, conditional metadata upsert, optional
migration, success.  `none` means the crypto pagination fuel ran out. -/
def runJob (env : Env) (w : World α) : Option RunOut :=
  let missing := missingEnv env
  if missing.isEmpty = false then
    some { result := .missingEnvError missing, ratesStore := w.ratesStore,
           metaStore := w.metaStore, networkCalls := 0,
           reachedUpsert := false, metaSkipped := false }
  else
    match fetchCryptoMarketData env.CRYPTORANK_API_KEY env.CRYPTORANK_MAX_PAGES
        w.cryptoPages w.fuel with
    | none => none
    | some (cryptoRes, offsets) =>
      let calls := 1 + offsets.length
      match w.fiatResult with
      | .error e =>
        some { result := .fiatFetchFailed e, ratesStore := w.ratesStore,
               metaStore := w.metaStore, networkCalls := calls,
               reachedUpsert := false, metaSkipped := false }
      | .ok fiatData =>
        match cryptoRes with
        | .error e =>
          some { result := .cryptoFetchFailed e, ratesStore := w.ratesStore,
                 metaStore := w.metaStore, networkCalls := calls,
                 reachedUpsert := false, metaSkipped := false }
        | .ok cryptoRaw =>
          let fiatRates := transformFiat fiatData
          let cryptoRates := cryptoRatesOf cryptoRaw
          let missingFiat := missingFiatOf fiatRates
          let hasBTC := hasBTCOf cryptoRates
          if missingFiat.isEmpty = false ∨ hasBTC = false then
            some { result := .sanityFailed missingFiat hasBTC,
                   ratesStore := w.ratesStore, metaStore := w.metaStore,
                   networkCalls := calls, reachedUpsert := false,
                   metaSkipped := false }
          else
            let body := (w.encFiat fiatRates, w.encCrypto cryptoRates)
            match upsertRates w.ratesStore w.newRatesId w.dateStr body with
            | .error e =>
              some { result := .ratesUpsertFailed e, ratesStore := w.ratesStore,
                     metaStore := w.metaStore, networkCalls := calls,
                     reachedUpsert := true, metaSkipped := false }
            | .ok (rs1, ratesDocId) =>
              if cryptoRaw.length ≠ 0 then
                match upsertMeta w.metaStore w.dateStr
                    (w.encMeta (cryptoMetaOf cryptoRaw)) with
                | .error e =>
                  some { result := .metaUpsertFailed e, ratesStore := rs1,
                         metaStore := w.metaStore, networkCalls := calls,
                         reachedUpsert := true, metaSkipped := false }
                | .ok ms1 =>
                  some { result := .success ratesDocId,
                         ratesStore := migrationStage env w rs1,
                         metaStore := ms1, networkCalls := calls,
                         reachedUpsert := true, metaSkipped := false }
              else
                some { result := .success ratesDocId,
                       ratesStore := migrationStage env w rs1,
                       metaStore := w.metaStore, networkCalls := calls,
                       reachedUpsert := true, metaSkipped := true }

/-! ### Concrete inputs used by witnesses and counterexamples -/

/-- A store whose date query fails and which already holds a snapshot for
the key `11102025` under an ordinary unique identifier. -/
def blindStore : Store Nat :=
  { docs := [{ id := "u1", date := "11102025", body := 0 }],
    queryOk := false, writeOk := true }

/-- The store `blindStore` leaves behind after one upsert: two documents
now carry the date `11102025`. -/
def blindStoreAfter : Store Nat :=
  { docs := [{ id := "u1", date := "11102025", body := 0 },
             { id := "11102025", date := "11102025", body := 1 }],
    queryOk := false, writeOk := true }

/-- An empty, fully functional store. -/
def freshStore : Store Nat := { docs := [], queryOk := true, writeOk := true }

/-- A queryable store holding one snapshot for `01012025`. -/
def foundStore : Store Nat :=
  { docs := [{ id := "a1", date := "01012025", body := 7 }],
    queryOk := true, writeOk := true }

/-- A store with a failing date query and no documents. -/
def blindEmptyStore : Store Nat := { docs := [], queryOk := false, writeOk := true }

/-- A store with a failing date query already holding a document whose
identifier is the date string `01012025`. -/
def blindIdStore : Store Nat :=
  { docs := [{ id := "01012025", date := "", body := 3 }],
    queryOk := false, writeOk := true }

/-- A store that rejects all writes. -/
def rejectStore : Store Nat := { docs := [], queryOk := true, writeOk := false }

/-- Fiat payload holding all three required codes. -/
def fiatData0 : List (String × FiatEntry Int) :=
  [("USD", ⟨1⟩), ("EUR", ⟨2⟩), ("RUB", ⟨3⟩)]

/-- Fiat payload missing `RUB`. -/
def fiatDataNoRub : List (String × FiatEntry Int) :=
  [("USD", ⟨1⟩), ("EUR", ⟨2⟩)]

/-- A concrete BTC row. -/
def btcRow : CryptoRow Int :=
  { symbol := "BTC", price := 60000, id := "bitcoin", name := "Bitcoin",
    rank := 1, type := "coin", lastUpdated := "t1", totalSupply := 21,
    maxSupply := 21, circulatingSupply := 19, high24h := 1, low24h := 2,
    volume24h := 3, marketCap := 4, ath := "ath1", atl := "atl1",
    images := "img1", extra := [("website", "w")] }

/-- A concrete ETH row. -/
def ethRow : CryptoRow Int :=
  { symbol := "ETH", price := 3000, id := "ethereum", name := "Ethereum",
    rank := 2, type := "coin", lastUpdated := "t2", totalSupply := 120,
    maxSupply := 0, circulatingSupply := 120, high24h := 5, low24h := 6,
    volume24h := 7, marketCap := 8, ath := "ath2", atl := "atl2",
    images := "img2", extra := [] }

/-- A second row duplicating the symbol `BTC` with different metadata. -/
def btcRowDup : CryptoRow Int :=
  { symbol := "BTC", price := 61000, id := "bitcoin-dup", name := "Bitcoin Again",
    rank := 9, type := "token", lastUpdated := "t3", totalSupply := 22,
    maxSupply := 22, circulatingSupply := 20, high24h := 11, low24h := 12,
    volume24h := 13, marketCap := 14, ath := "ath3", atl := "atl3",
    images := "img3", extra := [("note", "dup")] }

/-- Crypto rows with a duplicated symbol, for the transformer witness. -/
def rowsDup : List (CryptoRow Int) := [btcRow, ethRow, btcRowDup]

/-- An environment carrying every value. -/
def envAll : Env :=
  { PROJECT_ID := some "p", APPWRITE_API_KEY := some "k",
    RATES_API_KEY := some "r", RATES1_DATABASE_ID := some "db",
    RATES_COMBINED_COLLECTION_ID := some "cc",
    CRYPTORANK_API_KEY := some "ck", CRYPTOMETA_DATABASE_ID := some "md",
    CRYPTOMETA_COLLECTION_ID := some "mc", CRYPTORANK_MAX_PAGES := none,
    MIGRATE_TO_NEW_DB := some "0", DATABASE_ID := some "odb",
    COLLECTION_ID := some "occ" }

/-- An environment whose project id is absent and whose metadata
collection id is the empty string (also missing under JS truthiness),
with the optional crypto key present. -/
def envMissingSome : Env :=
  { envAll with PROJECT_ID := none, CRYPTOMETA_COLLECTION_ID := some "" }

/-- An environment missing only the optional crypto API key. -/
def envNoCryptoKey : Env := { envAll with CRYPTORANK_API_KEY := none }

/-- A run world whose fetches both succeed, with one short crypto page
containing a BTC row and both stores empty and functional. -/
def worldOk : World Int :=
  { fiatResult := .ok fiatData0,
    cryptoPages := fun _ => .ok [btcRow], fuel := 3,
    ratesStore := { docs := [], queryOk := true, writeOk := true },
    metaStore := { docs := [], queryOk := true, writeOk := true },
    dateStr := "11102025", newRatesId := "r1",
    migUids := fun n => toString n, oldDocs := [],
    encFiat := fun _ => "F", encCrypto := fun _ => "C",
    encMeta := fun _ => "M" }

/-- The same world with a fiat payload missing `RUB`. -/
def worldNoRub : World Int := { worldOk with fiatResult := .ok fiatDataNoRub }

/-- The outcome `runJob envAll worldNoRub` computes to. -/
def sanOut : RunOut :=
  { result := .sanityFailed ["RUB"] true,
    ratesStore := { docs := [], queryOk := true, writeOk := true },
    metaStore := { docs := [], queryOk := true, writeOk := true },
    networkCalls := 2, reachedUpsert := false, metaSkipped := false }

/-- The outcome of a run that fails the environment check. -/
def missingRunOut (env : Env) (w : World α) : RunOut :=
  { result := .missingEnvError (missingEnv env), ratesStore := w.ratesStore,
    metaStore := w.metaStore, networkCalls := 0, reachedUpsert := false,
    metaSkipped := false }

/-- The outcome `runJob envAll worldOk` computes to. -/
def okRunOut : RunOut :=
  { result := .success "r1",
    ratesStore := { docs := [{ id := "r1", date := "11102025", body := ("F", "C") }],
                    queryOk := true, writeOk := true },
    metaStore := { docs := [{ id := "11102025", date := "11102025", body := "M" }],
                   queryOk := true, writeOk := true },
    networkCalls := 2, reachedUpsert := true, metaSkipped := false }

/-! ## Lemmas about the store model -/

theorem mem_filterByDate {docs : List (Doc β)} {d : String} {x : Doc β} :
    x ∈ filterByDate docs d ↔ x ∈ docs ∧ x.date = d := by
  simp [filterByDate]

theorem hasId_true_of_mem {s : Store β} {x : Doc β} (hx : x ∈ s.docs) :
    hasId s x.id = true := by
  simp only [hasId, List.any_eq_true]
  exact ⟨x, hx, by simp⟩

theorem hasId_false_iff {s : Store β} {i : String} :
    hasId s i = false ↔ ∀ x ∈ s.docs, x.id ≠ i := by
  simp [hasId]

theorem replaceDoc_length (docs : List (Doc β)) (i : String) (r : DocData β) :
    (replaceDoc docs i r).length = docs.length := by
  simp [replaceDoc]

theorem replaceDoc_map_id (docs : List (Doc β)) (i : String) (r : DocData β) :
    (replaceDoc docs i r).map Doc.id = docs.map Doc.id := by
  unfold replaceDoc
  induction docs with
  | nil => rfl
  | cons x rest ih =>
    by_cases h : x.id = i <;> simp [h, ih]

theorem replaceDoc_of_forall_ne {docs : List (Doc β)} {i : String} (r : DocData β)
    (h : ∀ y ∈ docs, y.id ≠ i) : replaceDoc docs i r = docs := by
  unfold replaceDoc
  induction docs with
  | nil => rfl
  | cons x rest ih =>
    simp only [List.map_cons]
    rw [if_neg (h x (by simp)), ih (fun y hy => h y (by simp [hy]))]

theorem filterByDate_replace {docs : List (Doc β)} {i d : String} (b : β)
    (hnd : (docs.map Doc.id).Nodup)
    (hmem : ∃ w ∈ docs, w.id = i)
    (hall : ∀ x ∈ docs, x.date = d → x.id = i) :
    filterByDate (replaceDoc docs i { date := d, body := b }) d =
      [{ id := i, date := d, body := b }] := by
  induction docs with
  | nil =>
    obtain ⟨w, hw, _⟩ := hmem
    cases hw
  | cons x rest ih =>
    simp only [List.map_cons, List.nodup_cons] at hnd
    by_cases hx : x.id = i
    · have hrest_ne : ∀ y ∈ rest, y.id ≠ i := by
        intro y hy he
        exact hnd.1 (by rw [← hx] at he; exact he ▸ List.mem_map_of_mem Doc.id hy)
      have hrest_nodate : ∀ y ∈ rest, ¬(y.date = d) := by
        intro y hy hyd
        exact hrest_ne y hy (hall y (by simp [hy]) hyd)
      unfold replaceDoc
      simp only [List.map_cons, if_pos hx]
      have hrepl : replaceDoc rest i { date := d, body := b } = rest :=
        replaceDoc_of_forall_ne _ hrest_ne
      unfold replaceDoc at hrepl
      rw [hrepl]
      simp only [filterByDate, List.filter_cons]
      rw [hx]
      simp only [decide_True, if_true]
      have : rest.filter (fun x => decide (x.date = d)) = [] := by
        rw [List.filter_eq_nil_iff]
        intro a ha
        simp [hrest_nodate a ha]
      simp [this]
    · have hxd : ¬(x.date = d) := fun hd => hx (hall x (by simp) hd)
      have hmem' : ∃ w ∈ rest, w.id = i := by
        obtain ⟨w, hw, hwi⟩ := hmem
        rcases List.mem_cons.mp hw with h | h
        · exact absurd (h ▸ hwi) hx
        · exact ⟨w, h, hwi⟩
      have hall' : ∀ y ∈ rest, y.date = d → y.id = i :=
        fun y hy => hall y (by simp [hy])
      have := ih hnd.2 hmem' hall'
      unfold replaceDoc
      simp only [List.map_cons, if_neg hx]
      unfold replaceDoc at this
      simp only [filterByDate, List.filter_cons] at this ⊢
      simp [hxd, this]

theorem listByDate_ok {s : Store β} {d : String} (hq : s.queryOk = true) :
    listByDate s d = .ok (dateFilter s d) := by
  simp [listByDate, hq]

theorem listByDate_err {s : Store β} {d : String} (hq : s.queryOk = false) :
    listByDate s d = .error "query failed" := by
  simp [listByDate, hq]

theorem updateDocument_ok {s : Store β} {i : String} (r : DocData β)
    (hw : s.writeOk = true) (hid : hasId s i = true) :
    updateDocument s i r = .ok { s with docs := replaceDoc s.docs i r } := by
  simp [updateDocument, hw, hid]

theorem createDocument_ok {s : Store β} {i : String} (r : DocData β)
    (hw : s.writeOk = true) (hid : hasId s i = false) :
    createDocument s i r =
      .ok { s with docs := s.docs ++ [{ id := i, date := r.date, body := r.body }] } := by
  simp [createDocument, hw, hid]

theorem createDocument_exists {s : Store β} {i : String} (r : DocData β)
    (hw : s.writeOk = true) (hid : hasId s i = true) :
    createDocument s i r = .error "document already exists" := by
  simp [createDocument, hw, hid]

/-! ## Evaluation of the rates upsert in each reachable configuration -/

theorem upsertRates_found {s : Store β} {d : String} {w : Doc β} {rest : List (Doc β)}
    (n : String) (b : β) (hq : s.queryOk = true) (hw : s.writeOk = true)
    (hf : dateFilter s d = w :: rest) :
    upsertRates s n d b =
      .ok ({ s with docs := replaceDoc s.docs w.id { date := d, body := b } }, w.id) := by
  have hwmem : w ∈ s.docs :=
    (mem_filterByDate.mp (hf ▸ List.mem_cons_self w rest : w ∈ dateFilter s d)).1
  have hid := hasId_true_of_mem hwmem
  have h1 : listByDate s d = .ok (w :: rest) := by rw [listByDate_ok hq, hf]
  have h2 := updateDocument_ok (s := s) (i := w.id)
    { date := d, body := b } hw hid
  simp [upsertRates, h1, h2]

theorem upsertRates_notfound {s : Store β} {d : String}
    (n : String) (b : β) (hq : s.queryOk = true) (hw : s.writeOk = true)
    (hf : dateFilter s d = []) (hn : hasId s n = false) :
    upsertRates s n d b =
      .ok ({ s with docs := s.docs ++ [{ id := n, date := d, body := b }] }, n) := by
  have h1 : listByDate s d = .ok [] := by rw [listByDate_ok hq, hf]
  have h2 := createDocument_ok (s := s) (i := n) { date := d, body := b } hw hn
  simp [upsertRates, h1, h2]

theorem upsertRates_fallback_create {s : Store β} {d : String}
    (n : String) (b : β) (hq : s.queryOk = false) (hw : s.writeOk = true)
    (hid : hasId s d = false) :
    upsertRates s n d b =
      .ok ({ s with docs := s.docs ++ [{ id := d, date := d, body := b }] }, d) := by
  have h1 := listByDate_err (s := s) (d := d) hq
  have h2 := createDocument_ok (s := s) (i := d) { date := d, body := b } hw hid
  simp [upsertRates, h1, h2]

theorem upsertRates_fallback_update {s : Store β} {d : String}
    (n : String) (b : β) (hq : s.queryOk = false) (hw : s.writeOk = true)
    (hid : hasId s d = true) :
    upsertRates s n d b =
      .ok ({ s with docs := replaceDoc s.docs d { date := d, body := b } }, d) := by
  have h1 := listByDate_err (s := s) (d := d) hq
  have h2 := createDocument_exists (s := s) (i := d) { date := d, body := b } hw hid
  have h3 := updateDocument_ok (s := s) (i := d) { date := d, body := b } hw hid
  simp [upsertRates, h1, h2, h3]

theorem upsertRates_write_rejected {s : Store β} (n d : String) (b : β)
    (hw : s.writeOk = false) :
    upsertRates s n d b = .error "write failed" := by
  have hc : ∀ (i : String) (r : DocData β),
      createDocument s i r = .error "write failed" := by
    intro i r
    simp [createDocument, hw]
  have hu : ∀ (i : String) (r : DocData β),
      updateDocument s i r = .error "write failed" := by
    intro i r
    simp [updateDocument, hw]
  cases hq : s.queryOk with
  | false => simp [upsertRates, listByDate_err hq, hc, hu]
  | true =>
    cases hfd : dateFilter s d with
    | nil => simp [upsertRates, listByDate_ok hq, hfd, hc, hu]
    | cons w rest => simp [upsertRates, listByDate_ok hq, hfd, hc, hu]

/-- C3: the primary-store upsert follows the claimed state machine.  With
a working date query it updates the first match, or creates under the
fresh identifier when nothing matches; when the lookup mechanism fails it
falls back to the date string as identifier, first create, then update,
and when the store keeps rejecting writes the final underlying error
surfaces as the run's failure result. -/
theorem c3_upsert_state_machine (s : Store β) (n d : String) (b : β) :
    (∀ w rest, s.queryOk = true → s.writeOk = true → dateFilter s d = w :: rest →
      upsertRates s n d b =
        .ok ({ s with docs := replaceDoc s.docs w.id { date := d, body := b } }, w.id)) ∧
    (s.queryOk = true → s.writeOk = true → dateFilter s d = [] → hasId s n = false →
      upsertRates s n d b =
        .ok ({ s with docs := s.docs ++ [{ id := n, date := d, body := b }] }, n)) ∧
    (s.queryOk = false → s.writeOk = true → hasId s d = false →
      upsertRates s n d b =
        .ok ({ s with docs := s.docs ++ [{ id := d, date := d, body := b }] }, d)) ∧
    (s.queryOk = false → s.writeOk = true → hasId s d = true →
      upsertRates s n d b =
        .ok ({ s with docs := replaceDoc s.docs d { date := d, body := b } }, d)) ∧
    (s.writeOk = false → upsertRates s n d b = .error "write failed") :=
  ⟨fun w rest hq hw hf => upsertRates_found n b hq hw hf,
   fun hq hw hf hn => upsertRates_notfound n b hq hw hf hn,
   fun hq hw hid => upsertRates_fallback_create n b hq hw hid,
   fun hq hw hid => upsertRates_fallback_update n b hq hw hid,
   fun hw => upsertRates_write_rejected n d b hw⟩

/-- Witness for C3: each branch of the state machine evaluated on a
concrete store. -/
theorem c3_upsert_state_machine_witness :
    upsertRates foundStore "n1" "01012025" (9 : Nat) =
      .ok ({ foundStore with
             docs := replaceDoc foundStore.docs "a1" { date := "01012025", body := 9 } },
           "a1") ∧
    upsertRates freshStore "n1" "01012025" (9 : Nat) =
      .ok ({ freshStore with
             docs := freshStore.docs ++ [{ id := "n1", date := "01012025", body := 9 }] },
           "n1") ∧
    upsertRates blindEmptyStore "n1" "01012025" (9 : Nat) =
      .ok ({ blindEmptyStore with
             docs := blindEmptyStore.docs ++
               [{ id := "01012025", date := "01012025", body := 9 }] },
           "01012025") ∧
    upsertRates blindIdStore "n1" "01012025" (9 : Nat) =
      .ok ({ blindIdStore with
             docs := replaceDoc blindIdStore.docs "01012025"
               { date := "01012025", body := 9 } },
           "01012025") ∧
    upsertRates rejectStore "n1" "01012025" (9 : Nat) = .error "write failed" := by
  refine ⟨?_, ?_, ?_, ?_, ?_⟩
  · exact (c3_upsert_state_machine foundStore "n1" "01012025" 9).1
      { id := "a1", date := "01012025", body := 7 } [] rfl rfl (by decide)
  · exact (c3_upsert_state_machine freshStore "n1" "01012025" 9).2.1
      rfl rfl (by decide) (by decide)
  · exact (c3_upsert_state_machine blindEmptyStore "n1" "01012025" 9).2.2.1
      rfl rfl (by decide)
  · exact (c3_upsert_state_machine blindIdStore "n1" "01012025" 9).2.2.2.1
      rfl rfl (by decide)
  · exact (c3_upsert_state_machine rejectStore "n1" "01012025" 9).2.2.2.2
      rfl

/-! ## The at-most-one-snapshot reconciliation analysis (claim C1) -/

theorem hasId_true_iff {s : Store β} {i : String} :
    hasId s i = true ↔ ∃ x ∈ s.docs, x.id = i := by
  simp [hasId]

/-- One upsert, run under the conditions in which it reconciles: writes
accepted, identifiers unique, the store `goodFor` the date key, and at
most one snapshot present.  It then succeeds, leaves exactly one document
for the key (whose identifier it returns), preserves uniqueness, the
capability flags and `goodFor`, and when a snapshot was already present
it updates that document in place. -/
theorem upsertRates_reconcile (s : Store β) (n d : String) (b : β)
    (hw : s.writeOk = true) (hnd : (s.docs.map Doc.id).Nodup)
    (hg : goodFor s d) (hcount : countDate s d ≤ 1)
    (hfresh : dateFilter s d = [] → hasId s n = false) :
    ∃ s1 i1, upsertRates s n d b = .ok (s1, i1) ∧
      dateFilter s1 d = [{ id := i1, date := d, body := b }] ∧
      (s1.docs.map Doc.id).Nodup ∧
      goodFor s1 d ∧ s1.queryOk = s.queryOk ∧ s1.writeOk = s.writeOk ∧
      (∀ w0, dateFilter s d = [w0] → i1 = w0.id ∧ s1.docs.length = s.docs.length) := by
  cases hq : s.queryOk with
  | true =>
    cases hfd : dateFilter s d with
    | cons w rest =>
      have hrest : rest = [] := by
        have hlen : countDate s d = rest.length + 1 := by
          rw [countDate, hfd]
          simp
        rw [← List.length_eq_zero]
        omega
      subst hrest
      have hwmem : w ∈ s.docs ∧ w.date = d := mem_filterByDate.mp
        (hfd ▸ List.mem_cons_self w [] : w ∈ dateFilter s d)
      have hall : ∀ x ∈ s.docs, x.date = d → x.id = w.id := by
        intro x hx hxd
        have : x ∈ dateFilter s d := mem_filterByDate.mpr ⟨hx, hxd⟩
        rw [hfd] at this
        rw [List.mem_singleton.mp this]
      refine ⟨_, w.id, upsertRates_found n b hq hw hfd, ?_, ?_, ?_, hq, rfl, ?_⟩
      · exact filterByDate_replace b hnd ⟨w, hwmem.1, rfl⟩ hall
      · rw [replaceDoc_map_id]
        exact hnd
      · exact Or.inl hq
      · intro w0 hw0
        have hww : w = w0 := by injection hw0
        refine ⟨hww ▸ rfl, ?_⟩
        exact replaceDoc_length s.docs w.id { date := d, body := b }
    | nil =>
      have hn : hasId s n = false := hfresh hfd
      refine ⟨_, n, upsertRates_notfound n b hq hw hfd hn, ?_, ?_, ?_, hq, rfl, ?_⟩
      · show filterByDate (s.docs ++ [{ id := n, date := d, body := b }]) d = _
        rw [filterByDate, List.filter_append]
        have h1 : s.docs.filter (fun x => decide (x.date = d)) = [] := hfd
        rw [h1]
        simp
      · rw [List.map_append]
        simp only [List.map_cons, List.map_nil]
        rw [List.nodup_append]
        refine ⟨hnd, List.nodup_singleton n, ?_⟩
        intro a ha hb
        rw [List.mem_singleton.mp hb] at ha
        obtain ⟨x, hx, hxi⟩ := List.mem_map.mp ha
        exact (hasId_false_iff.mp hn x hx) hxi
      · exact Or.inl hq
      · intro w0 hw0
        simp at hw0
  | false =>
    have hgr : ∀ x ∈ s.docs, x.date = d → x.id = d := by
      cases hg with
      | inl h => simp [hq] at h
      | inr h => exact h
    cases hid : hasId s d with
    | false =>
      have hempty : dateFilter s d = [] := by
        rw [dateFilter, filterByDate, List.filter_eq_nil_iff]
        intro x hx
        simp only [decide_eq_true_eq]
        intro hxd
        exact (hasId_false_iff.mp hid x hx) (hgr x hx hxd)
      refine ⟨_, d, upsertRates_fallback_create n b hq hw hid, ?_, ?_, ?_, hq, rfl, ?_⟩
      · show filterByDate (s.docs ++ [{ id := d, date := d, body := b }]) d = _
        rw [filterByDate, List.filter_append]
        have h1 : s.docs.filter (fun x => decide (x.date = d)) = [] := hempty
        rw [h1]
        simp
      · rw [List.map_append]
        simp only [List.map_cons, List.map_nil]
        rw [List.nodup_append]
        refine ⟨hnd, List.nodup_singleton d, ?_⟩
        intro a ha hb
        rw [List.mem_singleton.mp hb] at ha
        obtain ⟨x, hx, hxi⟩ := List.mem_map.mp ha
        exact (hasId_false_iff.mp hid x hx) hxi
      · refine Or.inr ?_
        intro x hx hxd
        rcases List.mem_append.mp hx with h | h
        · exact hgr x h hxd
        · rw [List.mem_singleton.mp h]
      · intro w0 hw0
        rw [hempty] at hw0
        simp at hw0
    | true =>
      have hex : ∃ x ∈ s.docs, x.id = d := hasId_true_iff.mp hid
      refine ⟨_, d, upsertRates_fallback_update n b hq hw hid, ?_, ?_, ?_, hq, rfl, ?_⟩
      · exact filterByDate_replace b hnd hex hgr
      · rw [replaceDoc_map_id]
        exact hnd
      · refine Or.inr ?_
        intro x hx hxd
        obtain ⟨y, hy, hyx⟩ := List.mem_map.mp hx
        by_cases hyi : y.id = d
        · rw [← hyx]
          simp [hyi]
        · have hxy : x = y := by
            rw [← hyx]
            simp [hyi]
          rw [hxy]
          exact hgr y hy (hxy ▸ hxd)
      · intro w0 hw0
        have hw0mem : w0 ∈ dateFilter s d := by
          rw [hw0]
          exact List.mem_singleton.mpr rfl
        have := mem_filterByDate.mp hw0mem
        refine ⟨(hgr w0 this.1 this.2).symm, ?_⟩
        exact replaceDoc_length s.docs d { date := d, body := b }

/-- C1 counterexample: a store whose date query fails and which already
holds the snapshot for `11102025` under the ordinary identifier `u1`.
The upsert's fallback path creates a second document keyed by the date
string, so the at-most-one-snapshot-per-date invariant is not preserved
by this upsert operation, refuting the claim as stated. -/
theorem c1_counterexample :
    countDate blindStore "11102025" = 1 ∧
    upsertRates blindStore "n1" "11102025" (1 : Nat) =
      .ok (blindStoreAfter, "11102025") ∧
    countDate blindStoreAfter "11102025" = 2 := by
  refine ⟨by decide, by decide, by decide⟩

/-- C1 (amended): under the stated side conditions — writes accepted,
unique identifiers, a fresh created-record identifier, at most one
snapshot present, and the store either answering the date query or
keeping every snapshot of the key under the date string itself — running
the upsert twice for the same date leaves exactly one record for the date
key: the second run finds the record written by the first, writes to the
same record identifier, and adds no record. -/
theorem c1_upsert_idempotent (s : Store β) (n1 n2 d : String) (b : β)
    (hw : s.writeOk = true) (hnd : (s.docs.map Doc.id).Nodup)
    (hg : goodFor s d) (hcount : countDate s d ≤ 1)
    (hfresh : hasId s n1 = false) :
    ∃ s1 i1 s2, upsertRates s n1 d b = .ok (s1, i1) ∧ countDate s1 d = 1 ∧
      upsertRates s1 n2 d b = .ok (s2, i1) ∧ countDate s2 d = 1 ∧
      s2.docs.length = s1.docs.length := by
  obtain ⟨s1, i1, hrun1, hfil1, hnd1, hg1, hqeq1, hweq1, _⟩ :=
    upsertRates_reconcile s n1 d b hw hnd hg hcount (fun _ => hfresh)
  have hw1 : s1.writeOk = true := by rw [hweq1, hw]
  have hc1 : countDate s1 d = 1 := by
    simp [countDate, hfil1]
  have hfresh2 : dateFilter s1 d = [] → hasId s1 n2 = false := by
    intro h
    rw [hfil1] at h
    cases h
  obtain ⟨s2, i2, hrun2, hfil2, _, _, _, _, huniq2⟩ :=
    upsertRates_reconcile s1 n2 d b hw1 hnd1 hg1 (le_of_eq hc1) hfresh2
  have hbond := huniq2 { id := i1, date := d, body := b } hfil1
  have hi : i2 = i1 := hbond.1
  refine ⟨s1, i1, s2, hrun1, hc1, ?_, ?_, hbond.2⟩
  · rw [← hi]
    exact hrun2
  · simp [countDate, hfil2]

/-- Witness for the amended C1 on a concrete empty, fully functional
store. -/
theorem c1_upsert_idempotent_witness :
    freshStore.writeOk = true ∧ countDate freshStore "11102025" ≤ 1 ∧
    hasId freshStore "u7" = false ∧
    (∃ s1 i1 s2,
      upsertRates freshStore "u7" "11102025" (5 : Nat) = .ok (s1, i1) ∧
      countDate s1 "11102025" = 1 ∧
      upsertRates s1 "u8" "11102025" (5 : Nat) = .ok (s2, i1) ∧
      countDate s2 "11102025" = 1 ∧
      s2.docs.length = s1.docs.length) :=
  ⟨rfl, by decide, by decide,
   c1_upsert_idempotent freshStore "u7" "u8" "11102025" 5 rfl (by decide)
     (Or.inl rfl) (by decide) (by decide)⟩

/-! ## Retry termination (claim C4) -/

/-- Unfolding of the retry loop on a failing attempt with attempts left. -/
theorem retryGo_succ_error (oracle : Nat → Except String γ) {r a : Nat} {e : String}
    (hr : r ≠ 0) (he : oracle a = .error e) :
    retryGo oracle (r + 1) a =
      { result := (retryGo oracle r (a + 1)).result,
        attempts := (retryGo oracle r (a + 1)).attempts + 1,
        waitsMs := 2 ^ a * 1000 :: (retryGo oracle r (a + 1)).waitsMs } := by
  rw [retryGo, he]
  simp [hr]

/-- The wait schedule starting at attempt `a` is the first wait followed
by the schedule starting at attempt `a + 1`. -/
theorem waitsShift (a k : Nat) :
    (List.range (k + 1)).map (fun i => 2 ^ (a + i) * 1000) =
      2 ^ a * 1000 :: (List.range k).map (fun i => 2 ^ (a + 1 + i) * 1000) := by
  rw [List.range_succ_eq_map]
  simp only [List.map_cons, List.map_map, Nat.add_zero]
  refine congrArg (List.cons (2 ^ a * 1000)) ?_
  refine List.map_congr_left ?_
  intro i hi
  simp only [Function.comp_apply, Nat.succ_eq_add_one]
  rw [show a + (i + 1) = a + 1 + i by omega]

/-- When every remaining attempt fails, the loop performs exactly the
remaining attempts, waits `2 ^ a * 1000` milliseconds after each failed
attempt except the last, and raises the last attempt's error. -/
theorem retryGo_all_fail (oracle : Nat → Except String γ) (errs : Nat → String) :
    ∀ r a, 1 ≤ r → (∀ i, a ≤ i → i < a + r → oracle i = .error (errs i)) →
      retryGo oracle r a =
        { result := .error (errs (a + r - 1)), attempts := r,
          waitsMs := (List.range (r - 1)).map (fun i => 2 ^ (a + i) * 1000) } := by
  intro r
  induction r with
  | zero => intro a h; omega
  | succ r ih =>
    intro a hr hfail
    have ha : oracle a = .error (errs a) := hfail a le_rfl (by omega)
    cases r with
    | zero =>
      simp [retryGo, ha]
    | succ r0 =>
      have hrec := ih (a + 1) (by omega)
        (fun i hi1 hi2 => hfail i (by omega) (by omega))
      rw [retryGo_succ_error oracle (by omega) ha, hrec]
      dsimp only
      simp only [RetryOut.mk.injEq, Nat.add_sub_cancel]
      refine ⟨by rw [show a + 1 + (r0 + 1) - 1 = a + (r0 + 1 + 1) - 1 by omega],
        trivial, (waitsShift a r0).symm⟩

/-- When the `k`-th attempt (counting from the current one) is the first
to succeed and lies within the budget, the loop returns its parsed body
after exactly `k` attempts. -/
theorem retryGo_first_success (oracle : Nat → Except String γ) (v : γ) :
    ∀ k r a, 1 ≤ k → k ≤ r →
      (∀ i, a ≤ i → i < a + (k - 1) → ∃ e, oracle i = .error e) →
      oracle (a + k - 1) = .ok v →
      retryGo oracle r a =
        { result := .ok v, attempts := k,
          waitsMs := (List.range (k - 1)).map (fun i => 2 ^ (a + i) * 1000) } := by
  intro k
  induction k with
  | zero => intro r a h; omega
  | succ k ih =>
    intro r a hk hkr hfail hok
    cases r with
    | zero => omega
    | succ r0 =>
      cases k with
      | zero =>
        have hoa : oracle a = .ok v := by simpa using hok
        cases r0 with
        | zero => simp [retryGo, hoa]
        | succ r1 => simp [retryGo, hoa]
      | succ k0 =>
        obtain ⟨e, he⟩ := hfail a le_rfl (by omega)
        have hrec := ih r0 (a + 1) (by omega) (by omega)
          (fun i hi1 hi2 => hfail i (by omega) (by omega))
          (by rw [show a + 1 + (k0 + 1) - 1 = a + (k0 + 1 + 1) - 1 by omega]; exact hok)
        rw [retryGo_succ_error oracle (by omega) he, hrec]
        dsimp only
        simp only [RetryOut.mk.injEq, Nat.add_sub_cancel]
        refine ⟨trivial, trivial, (waitsShift a k0).symm⟩

/-- C4: for a maximum attempt count of at least 1, if every attempt fails
the fetcher raises the last error after exactly `max` attempts, having
waited `2 ^ attempt` seconds (here in milliseconds) after each failed
attempt except the last; and if some attempt is the first to succeed, it
returns that attempt's parsed body and makes no further requests. -/
theorem c4_fetchWithRetry_spec (oracle : Nat → Except String γ)
    (errs : Nat → String) (v : γ) (maxA k : Nat) (hmax : 1 ≤ maxA) :
    ((∀ i, 1 ≤ i → i ≤ maxA → oracle i = .error (errs i)) →
      fetchWithRetry oracle maxA =
        { result := .error (errs maxA), attempts := maxA,
          waitsMs := (List.range (maxA - 1)).map (fun i => 2 ^ (1 + i) * 1000) }) ∧
    (1 ≤ k → k ≤ maxA →
      (∀ i, 1 ≤ i → i < k → ∃ e, oracle i = .error e) →
      oracle k = .ok v →
      fetchWithRetry oracle maxA =
        { result := .ok v, attempts := k,
          waitsMs := (List.range (k - 1)).map (fun i => 2 ^ (1 + i) * 1000) }) := by
  constructor
  · intro hfail
    have := retryGo_all_fail oracle errs maxA 1 hmax
      (fun i hi1 hi2 => hfail i hi1 (by omega))
    rw [fetchWithRetry, this, show 1 + maxA - 1 = maxA by omega]
  · intro hk hkmax hfail hok
    have := retryGo_first_success oracle v k maxA 1 hk hkmax
      (fun i hi1 hi2 => hfail i hi1 (by omega))
      (by rw [show 1 + k - 1 = k by omega]; exact hok)
    rw [fetchWithRetry, this]

/-- Witness for C4: an always-failing upstream exhausts 3 attempts with
waits of 2 and 4 seconds, and an upstream succeeding on attempt 2 stops
there after one 2-second wait. -/
theorem c4_fetchWithRetry_spec_witness :
    fetchWithRetry (fun _ => (.error "boom" : Except String Nat)) 3 =
      { result := .error "boom", attempts := 3, waitsMs := [2000, 4000] } ∧
    fetchWithRetry
        (fun a => if a = 1 then (.error "early" : Except String Nat) else .ok 42) 3 =
      { result := .ok 42, attempts := 2, waitsMs := [2000] } := by
  constructor
  · have h := (c4_fetchWithRetry_spec (fun _ => (.error "boom" : Except String Nat))
      (fun _ => "boom") 0 3 2 (by omega)).1 (fun i hi1 hi2 => rfl)
    rw [h]
    decide
  · have h := (c4_fetchWithRetry_spec
      (fun a => if a = 1 then (.error "early" : Except String Nat) else .ok 42)
      (fun _ => "early") 42 3 2 (by omega)).2 (by omega) (by omega)
      (fun i hi1 hi2 => ⟨"early", by interval_cases i <;> rfl⟩) (by rfl)
    rw [h]
    decide

/-! ## Crypto pagination (claims C5 and C9) -/

/-- Offsets requested from position `skip` split off the first request. -/
theorem offsetsShift (skip k : Nat) :
    (List.range (k + 1)).map (fun i => skip + 100 * i) =
      skip :: (List.range k).map (fun i => skip + 100 + 100 * i) := by
  rw [List.range_succ_eq_map]
  simp only [List.map_cons, List.map_map, Nat.mul_zero, Nat.add_zero]
  refine congrArg (List.cons skip) ?_
  refine List.map_congr_left ?_
  intro i hi
  simp only [Function.comp_apply, Nat.succ_eq_add_one]
  omega

/-- Concatenated pages split off the first page. -/
theorem joinShift (pgRows : Nat → List γ) (k : Nat) :
    ((List.range (k + 1)).map pgRows).flatten =
      pgRows 0 ++ ((List.range k).map (fun i => pgRows (i + 1))).flatten := by
  rw [List.range_succ_eq_map]
  simp only [List.map_cons, List.map_map, List.flatten_cons]
  refine congrArg (fun t => pgRows 0 ++ t) ?_
  refine congrArg List.flatten ?_
  refine List.map_congr_left ?_
  intro i hi
  simp [Function.comp_apply, Nat.succ_eq_add_one]

/-- With an integer cap `m` and every remaining page full, the loop
requests exactly the pages up to the cap, advancing the offset by 100,
and returns their concatenation. -/
theorem cryptoGo_full_to_cap (pages : Nat → Except String (List γ)) (m : Nat) :
    ∀ (k : Nat) (pgRows : Nat → List γ) (fuel pc skip : Nat),
      pc + k = m → k ≤ fuel → 1 ≤ k →
      (∀ i, i < k → pages (skip + 100 * i) = .ok (pgRows i) ∧ (pgRows i).length = 100) →
      cryptoGo pages (.int (m : Int)) fuel pc skip =
        some (.ok (((List.range k).map pgRows).flatten),
              (List.range k).map (fun i => skip + 100 * i)) := by
  intro k
  induction k with
  | zero => intro pgRows fuel pc skip hcm hf h1; omega
  | succ k ih =>
    intro pgRows fuel pc skip hcm hf h1 hp
    obtain ⟨hp0, hl0⟩ := hp 0 (by omega)
    rw [Nat.mul_zero, Nat.add_zero] at hp0
    cases fuel with
    | zero => omega
    | succ f =>
      cases k with
      | zero =>
        have hcap : capReached (pc + 1) (.int (m : Int)) = true := by
          simp only [capReached, decide_eq_true_eq]
          omega
        simp [cryptoGo, hp0, hl0, hcap, List.range_succ]
      | succ k0 =>
        have hcap : capReached (pc + 1) (.int (m : Int)) = false := by
          simp only [capReached, decide_eq_false_iff_not]
          omega
        have hrec := ih (fun i => pgRows (i + 1)) f (pc + 1) (skip + 100)
          (by omega) (by omega) (by omega)
          (fun i hi => by
            have := hp (i + 1) (by omega)
            constructor
            · rw [show skip + 100 + 100 * i = skip + 100 * (i + 1) by ring]
              exact this.1
            · exact this.2)
        simp only [cryptoGo, hp0, hl0]
        rw [if_neg (by omega), hcap]
        simp only [Bool.false_eq_true, if_false, hrec]
        rw [joinShift pgRows (k0 + 1), offsetsShift skip (k0 + 1)]

/-- As long as the cap does not intervene, the loop stops at the first
short page, having requested exactly the pages through it. -/
theorem cryptoGo_short_stop (pages : Nat → Except String (List γ)) (cap : JNum) :
    ∀ (j : Nat) (pgRows : Nat → List γ) (fuel pc skip : Nat),
      1 ≤ j → j ≤ fuel →
      (∀ i, i + 1 < j → capReached (pc + i + 1) cap = false) →
      (∀ i, i < j → pages (skip + 100 * i) = .ok (pgRows i)) →
      (∀ i, i + 1 < j → (pgRows i).length = 100) →
      (pgRows (j - 1)).length < 100 →
      cryptoGo pages cap fuel pc skip =
        some (.ok (((List.range j).map pgRows).flatten),
              (List.range j).map (fun i => skip + 100 * i)) := by
  intro j
  induction j with
  | zero => intro pgRows fuel pc skip h1; omega
  | succ j ih =>
    intro pgRows fuel pc skip h1 hf hcap hp hl hshort
    have hp0 : pages skip = .ok (pgRows 0) := by
      have := hp 0 (by omega)
      rwa [Nat.mul_zero, Nat.add_zero] at this
    cases fuel with
    | zero => omega
    | succ f =>
      cases j with
      | zero =>
        have hs : (pgRows 0).length < 100 := by simpa using hshort
        simp [cryptoGo, hp0, hs, List.range_succ]
      | succ j0 =>
        have hl0 : (pgRows 0).length = 100 := hl 0 (by omega)
        have hc0 : capReached (pc + 1) cap = false := by
          have := hcap 0 (by omega)
          simpa using this
        have hrec := ih (fun i => pgRows (i + 1)) f (pc + 1) (skip + 100)
          (by omega) (by omega)
          (fun i hi => by
            have := hcap (i + 1) (by omega)
            rwa [show pc + (i + 1) + 1 = pc + 1 + i + 1 by ring] at this)
          (fun i hi => by
            have := hp (i + 1) (by omega)
            rwa [show skip + 100 * (i + 1) = skip + 100 + 100 * i by ring] at this)
          (fun i hi => hl (i + 1) (by omega))
          (by simpa using hshort)
        simp only [cryptoGo, hp0, hl0]
        rw [if_neg (by omega), hc0]
        simp only [Bool.false_eq_true, if_false, hrec]
        rw [joinShift pgRows (j0 + 1), offsetsShift skip (j0 + 1)]

/-- With a NaN cap and only full pages, the loop never stops: any finite
fuel is exhausted with the loop still running. -/
theorem cryptoGo_nan_diverges (pages : Nat → Except String (List γ)) :
    ∀ (fuel : Nat) (pgRows : Nat → List γ) (pc skip : Nat),
      (∀ i, pages (skip + 100 * i) = .ok (pgRows i) ∧ (pgRows i).length = 100) →
      cryptoGo pages .nan fuel pc skip = none := by
  intro fuel
  induction fuel with
  | zero => intro pgRows pc skip hp; rfl
  | succ f ih =>
    intro pgRows pc skip hp
    have hp0 : pages skip = .ok (pgRows 0) := by
      have := (hp 0).1
      rwa [Nat.mul_zero, Nat.add_zero] at this
    have hl0 : (pgRows 0).length = 100 := (hp 0).2
    have hrec := ih (fun i => pgRows (i + 1)) (pc + 1) (skip + 100)
      (fun i => by
        have := hp (i + 1)
        constructor
        · rw [show skip + 100 + 100 * i = skip + 100 * (i + 1) by ring]
          exact this.1
        · exact this.2)
    simp only [cryptoGo, hp0, hl0]
    rw [if_neg (by omega)]
    simp [capReached, hrec]

/-- C5: with no API key configured the crypto fetcher returns the empty
list without any request; otherwise it starts at offset 0, advances by
100, and returns the concatenation of the fetched pages in fetch order:
with every page full it requests exactly the cap's number of pages (10
when no override is configured), and a short page stops it there
regardless of the cap. -/
theorem c5_crypto_pagination (apiKey maxPagesEnv : Option String)
    (pages : Nat → Except String (List γ)) (pgRows : Nat → List γ)
    (fuel m j : Nat) :
    (truthy apiKey = false →
      fetchCryptoMarketData apiKey maxPagesEnv pages fuel = some (.ok [], [])) ∧
    (truthy apiKey = true → maxPagesEnv = none → 10 ≤ fuel →
      (∀ i, i < 10 → pages (100 * i) = .ok (pgRows i) ∧ (pgRows i).length = 100) →
      fetchCryptoMarketData apiKey maxPagesEnv pages fuel =
        some (.ok (((List.range 10).map pgRows).flatten),
              (List.range 10).map (fun i => 100 * i))) ∧
    (truthy apiKey = true → capOfEnv maxPagesEnv = .int (m : Int) → 1 ≤ j → j ≤ m →
      j ≤ fuel →
      (∀ i, i < j → pages (100 * i) = .ok (pgRows i)) →
      (∀ i, i + 1 < j → (pgRows i).length = 100) →
      (pgRows (j - 1)).length < 100 →
      fetchCryptoMarketData apiKey maxPagesEnv pages fuel =
        some (.ok (((List.range j).map pgRows).flatten),
              (List.range j).map (fun i => 100 * i))) := by
  refine ⟨?_, ?_, ?_⟩
  · intro hkey
    simp [fetchCryptoMarketData, hkey]
  · intro hkey hnone hfuel hp
    have hcap : capOfEnv maxPagesEnv = .int ((10 : Nat) : Int) := by
      rw [hnone]
      decide
    have := cryptoGo_full_to_cap pages 10 10 pgRows fuel 0 0 (by omega) hfuel (by omega)
      (fun i hi => by simpa using hp i hi)
    rw [fetchCryptoMarketData, if_neg (by simp [hkey]), hcap, this]
    simp
  · intro hkey hcap h1 hjm hjf hp hl hshort
    have hcapok : ∀ i, i + 1 < j → capReached (0 + i + 1) (JNum.int (m : Int)) = false := by
      intro i hi
      simp only [capReached, decide_eq_false_iff_not]
      omega
    have := cryptoGo_short_stop pages (.int (m : Int)) j pgRows fuel 0 0 h1 hjf
      hcapok (fun i hi => by simpa using hp i hi) hl hshort
    rw [fetchCryptoMarketData, if_neg (by simp [hkey]), hcap, this]
    simp

/-- Witness for C5: a missing key yields no requests; ten full pages stop
at the default cap; a short third page stops a cap-3 run early. -/
theorem c5_crypto_pagination_witness :
    fetchCryptoMarketData (none : Option String) none
      (fun _ => (.ok [] : Except String (List Nat))) 1 = some (.ok [], []) ∧
    fetchCryptoMarketData (some "k") none
      (fun _ => (.ok (List.replicate 100 (0 : Nat)))) 10 =
      some (.ok (((List.range 10).map (fun _ => List.replicate 100 (0 : Nat))).flatten),
            (List.range 10).map (fun i => 100 * i)) ∧
    fetchCryptoMarketData (some "k") (some "7")
      (fun sk => (.ok (if sk < 200 then List.replicate 100 (0 : Nat) else [9]))) 5 =
      some (.ok (((List.range 3).map
              (fun i => if 100 * i < 200 then List.replicate 100 (0 : Nat) else [9])).flatten),
            (List.range 3).map (fun i => 100 * i)) := by
  refine ⟨?_, ?_, ?_⟩
  · exact (c5_crypto_pagination none none (fun _ => (.ok [] : Except String (List Nat)))
      (fun _ => []) 1 0 0).1 rfl
  · exact (c5_crypto_pagination (some "k") none
      (fun _ => (.ok (List.replicate 100 (0 : Nat))))
      (fun _ => List.replicate 100 (0 : Nat)) 10 0 0).2.1 rfl rfl (by omega)
      (fun i hi => ⟨rfl, by simp⟩)
  · exact (c5_crypto_pagination (some "k") (some "7")
      (fun sk => (.ok (if sk < 200 then List.replicate 100 (0 : Nat) else [9])))
      (fun i => if 100 * i < 200 then List.replicate 100 (0 : Nat) else [9]) 5 7 3).2.2
      rfl (by decide) (by omega) (by omega) (by omega)
      (fun i hi => rfl)
      (fun i hi => by rw [if_pos (by omega : 100 * i < 200)]; simp)
      (by simp)

/-- C9: a page-cap override that does not parse as a number yields a NaN
cap, the cap comparison never holds, and pagination stops only at a short
page — in particular it runs past any page count while pages stay full. -/
theorem c9_nan_cap_unbounded (apiKey : Option String) (s : String)
    (pages : Nat → Except String (List γ)) (pgRows : Nat → List γ)
    (fuel j n : Nat) :
    (s ≠ "" → s.data.all (fun c => c.isDigit) = false → jsNumberOfString s = .nan) ∧
    (jsNumberOfString s = .nan → capOfEnv (some s) = .nan) ∧
    (∀ pc, capReached pc .nan = false) ∧
    (truthy apiKey = true → jsNumberOfString s = .nan → 1 ≤ j → j ≤ fuel →
      (∀ i, i < j → pages (100 * i) = .ok (pgRows i)) →
      (∀ i, i + 1 < j → (pgRows i).length = 100) →
      (pgRows (j - 1)).length < 100 →
      fetchCryptoMarketData apiKey (some s) pages fuel =
        some (.ok (((List.range j).map pgRows).flatten),
              (List.range j).map (fun i => 100 * i))) ∧
    (truthy apiKey = true → jsNumberOfString s = .nan →
      (∀ i, pages (100 * i) = .ok (pgRows i) ∧ (pgRows i).length = 100) →
      fetchCryptoMarketData apiKey (some s) pages n = none) := by
  refine ⟨?_, ?_, ?_, ?_, ?_⟩
  · intro hne hdig
    simp [jsNumberOfString, hne, hdig]
  · intro hnan
    simp [capOfEnv, hnan, jsMax1]
  · intro pc
    rfl
  · intro hkey hnan h1 hjf hp hl hshort
    have hcap : capOfEnv (some s) = .nan := by simp [capOfEnv, hnan, jsMax1]
    have := cryptoGo_short_stop pages .nan j pgRows fuel 0 0 h1 hjf
      (fun i hi => rfl) (fun i hi => by simpa using hp i hi) hl hshort
    rw [fetchCryptoMarketData, if_neg (by simp [hkey]), hcap, this]
    simp
  · intro hkey hnan hp
    have hcap : capOfEnv (some s) = .nan := by simp [capOfEnv, hnan, jsMax1]
    have := cryptoGo_nan_diverges pages n pgRows 0 0 (fun i => by simpa using hp i)
    rw [fetchCryptoMarketData, if_neg (by simp [hkey]), hcap, this]

/-- Witness for C9: the override string `abc` gives a NaN cap; with it,
twelve pages — beyond the default cap of ten — are fetched until the
short twelfth page, and with only full pages any fuel is exhausted. -/
theorem c9_nan_cap_unbounded_witness :
    jsNumberOfString "abc" = .nan ∧
    capOfEnv (some "abc") = .nan ∧
    capReached 99 .nan = false ∧
    fetchCryptoMarketData (some "k") (some "abc")
      (fun sk => (.ok (if sk < 1100 then List.replicate 100 (0 : Nat) else [7]))) 12 =
      some (.ok (((List.range 12).map
              (fun i => if 100 * i < 1100 then List.replicate 100 (0 : Nat) else [7])).flatten),
            (List.range 12).map (fun i => 100 * i)) ∧
    fetchCryptoMarketData (some "k") (some "abc")
      (fun _ => (.ok (List.replicate 100 (0 : Nat)))) 4 = none := by
  have h := c9_nan_cap_unbounded (some "k") "abc"
    (fun sk => (.ok (if sk < 1100 then List.replicate 100 (0 : Nat) else [7]) :
      Except String (List Nat)))
    (fun i => if 100 * i < 1100 then List.replicate 100 (0 : Nat) else [7]) 12 12 4
  have h2 := c9_nan_cap_unbounded (some "k") "abc"
    (fun _ => (.ok (List.replicate 100 (0 : Nat)) : Except String (List Nat)))
    (fun _ => List.replicate 100 (0 : Nat)) 4 1 4
  refine ⟨h.1 (by decide) (by decide), h.2.1 (h.1 (by decide) (by decide)),
    h.2.2.1 99, ?_, ?_⟩
  · exact h.2.2.2.1 rfl (h.1 (by decide) (by decide)) (by omega) (by omega)
      (fun i hi => rfl)
      (fun i hi => by rw [if_pos (by omega : 100 * i < 1100)]; simp)
      (by simp)
  · exact h2.2.2.2.2 rfl (h2.1 (by decide) (by decide))
      (fun i => ⟨rfl, by simp⟩)

/-! ## Migration (claim C7) -/

/-- Folding the per-record step over a batch processes every record: the
`scanned` counter grows by the batch size, every record's logical date is
attempted in order, and each record either moves or is recorded as
failed — a failure never stops the batch. -/
theorem migrateBatch_spec (uid : Nat → String) :
    ∀ (docs : List OldDoc) (st : MigState),
      (docs.foldl (migrateDoc uid) st).scanned = st.scanned + docs.length ∧
      (docs.foldl (migrateDoc uid) st).attempted = st.attempted ++ docs.map dateOrId ∧
      (docs.foldl (migrateDoc uid) st).moved +
          (docs.foldl (migrateDoc uid) st).failedDates.length =
        st.moved + st.failedDates.length + docs.length := by
  intro docs
  induction docs with
  | nil => intro st; simp
  | cons d rest ih =>
    intro st
    have hstep :
        (migrateDoc uid st d).scanned = st.scanned + 1 ∧
        (migrateDoc uid st d).attempted = st.attempted ++ [dateOrId d] ∧
        (migrateDoc uid st d).moved + (migrateDoc uid st d).failedDates.length =
          st.moved + st.failedDates.length + 1 := by
      unfold migrateDoc
      cases hres : migrateUpsertOne st.store (uid st.uidIdx) (dateOrId d)
          (normalizeField d.fiatRates "\x7b\x7d", normalizeField d.cryptoRates "[]") with
      | ok s2 =>
        simp [hres]
        try omega
      | error e =>
        simp [hres]
        try omega
    obtain ⟨h1, h2, h3⟩ := ih (migrateDoc uid st d)
    refine ⟨?_, ?_, ?_⟩
    · rw [List.foldl_cons, h1, hstep.1]
      simp only [List.length_cons]
      omega
    · rw [List.foldl_cons, h2, hstep.2.1]
      simp
    · rw [List.foldl_cons, h3, hstep.2.2]
      simp only [List.length_cons]
      omega

/-- C7: the migration loop scans every legacy record exactly once — a
per-record upsert failure is recorded and does not abort the rest; each
record's attempted logical date is its `date` field or, absent that, its
own identifier; every record either moves or fails; and the page loop
fetches `length / 100 + 1` pages, terminating at the first short or
empty page. -/
theorem c7_migration_fault_tolerant (uid : Nat → String) (old : List OldDoc)
    (s : Store (String × String)) :
    (migrate uid old s).scanned = old.length ∧
    (migrate uid old s).attempted = old.map dateOrId ∧
    (migrate uid old s).moved + (migrate uid old s).failedDates.length = old.length ∧
    (migrate uid old s).pagesFetched = old.length / 100 + 1 := by
  suffices h : ∀ (n : Nat) (rem : List OldDoc), rem.length = n →
      ∀ (st : MigState) (pages : Nat),
      (migrateGo uid st pages rem).scanned = st.scanned + rem.length ∧
      (migrateGo uid st pages rem).attempted = st.attempted ++ rem.map dateOrId ∧
      (migrateGo uid st pages rem).moved +
          (migrateGo uid st pages rem).failedDates.length =
        st.moved + st.failedDates.length + rem.length ∧
      (migrateGo uid st pages rem).pagesFetched = pages + rem.length / 100 + 1 by
    have := h old.length old rfl
      { store := s, scanned := 0, moved := 0, failedDates := [],
        attempted := [], uidIdx := 0 } 0
    unfold migrate
    refine ⟨?_, ?_, ?_, ?_⟩
    · rw [this.1]
      simp
    · rw [this.2.1]
      simp
    · rw [this.2.2.1]
      simp
    · rw [this.2.2.2]
      simp
  intro n
  induction n using Nat.strong_induction_on with
  | _ n ihn =>
    intro rem hlen st pages
    rw [migrateGo]
    by_cases hpage : rem.take 100 = []
    · have hrem : rem = [] := by
        by_contra hne
        have hne2 : rem.take 100 ≠ [] := by
          rcases rem with _ | ⟨d, rest⟩
          · exact absurd rfl hne
          · intro hfalse
            rw [show (100 : Nat) = 99 + 1 from rfl, List.take_succ_cons] at hfalse
            cases hfalse
        exact hne2 hpage
      subst hrem
      rw [dif_pos hpage]
      simp
    · rw [dif_neg hpage]
      have hlenpos : 0 < rem.length := by
        rcases rem with _ | ⟨d, rest⟩
        · exact absurd rfl hpage
        · simp
      have hbatch := migrateBatch_spec uid (rem.take 100) st
      by_cases hshort : (rem.take 100).length < 100
      · have hremlen : rem.length < 100 := by
          rw [List.length_take] at hshort
          omega
        have htake : rem.take 100 = rem := List.take_of_length_le (by omega)
        rw [if_pos hshort, htake]
        rw [htake] at hbatch
        have hdiv : rem.length / 100 = 0 := by omega
        refine ⟨?_, ?_, ?_, ?_⟩
        · simpa using hbatch.1
        · simpa using hbatch.2.1
        · simpa using hbatch.2.2
        · simp [hdiv]
      · have hremlen : 100 ≤ rem.length := by
          rw [List.length_take] at hshort
          omega
        rw [if_neg hshort]
        have hdn : (rem.drop 100).length = rem.length - 100 := List.length_drop 100 rem
        have htl : (rem.take 100).length = 100 := by
          rw [List.length_take]
          omega
        have ih := ihn (rem.drop 100).length (by omega) (rem.drop 100) rfl
          ((rem.take 100).foldl (migrateDoc uid) st) (pages + 1)
        refine ⟨?_, ?_, ?_, ?_⟩
        · rw [ih.1, hbatch.1, htl, hdn]
          omega
        · rw [ih.2.1, hbatch.2.1, List.append_assoc, ← List.map_append,
            List.take_append_drop]
        · rw [ih.2.2.1]
          have hb := hbatch.2.2
          omega
        · rw [ih.2.2.2, hdn]
          omega
/-! ## Transformer (claim C6) -/

theorem alLookup_cons_eq {p : String × γ} {l : List (String × γ)} {k : String}
    (h : p.1 = k) : alLookup (p :: l) k = some p.2 := by
  unfold alLookup
  rw [List.find?_cons_of_pos _ (by simp [h])]
  rfl

theorem alLookup_cons_ne {p : String × γ} {l : List (String × γ)} {k : String}
    (h : p.1 ≠ k) : alLookup (p :: l) k = alLookup l k := by
  unfold alLookup
  rw [List.find?_cons_of_neg _ (by simp [h])]

theorem insertEntry_cons_ne (p : String × γ) (rest : List (String × γ))
    (e : String × γ) (h : p.1 ≠ e.1) :
    insertEntry (p :: rest) e = p :: insertEntry rest e := by
  by_cases hr : rest.any (fun q => decide (q.1 = e.1))
  · simp [insertEntry, h, hr]
  · simp [insertEntry, h, hr]

theorem insertEntry_cons_eq (p : String × γ) (rest : List (String × γ))
    (e : String × γ) (h : p.1 = e.1) :
    insertEntry (p :: rest) e = e :: rest.map (fun q => if q.1 = e.1 then e else q) := by
  simp [insertEntry, h]

theorem alLookup_replaceEntries (rest : List (String × γ)) (e : String × γ)
    (k : String) (hne : e.1 ≠ k) :
    alLookup (rest.map (fun q => if q.1 = e.1 then e else q)) k = alLookup rest k := by
  induction rest with
  | nil => rfl
  | cons q rest ih =>
    simp only [List.map_cons]
    by_cases hq : q.1 = e.1
    · rw [if_pos hq, alLookup_cons_ne hne, alLookup_cons_ne (hq ▸ hne)]
      exact ih
    · rw [if_neg hq]
      by_cases hqk : q.1 = k
      · rw [alLookup_cons_eq hqk, alLookup_cons_eq hqk]
      · rw [alLookup_cons_ne hqk, alLookup_cons_ne hqk]
        exact ih

theorem alLookup_insert_self (acc : List (String × γ)) (k : String) (v : γ) :
    alLookup (insertEntry acc (k, v)) k = some v := by
  induction acc with
  | nil => simp [insertEntry, alLookup]
  | cons p rest ih =>
    by_cases hp : p.1 = k
    · rw [insertEntry_cons_eq p rest (k, v) (by simpa using hp)]
      exact alLookup_cons_eq rfl
    · rw [insertEntry_cons_ne p rest (k, v) (by simpa using hp)]
      rw [alLookup_cons_ne hp]
      exact ih

theorem alLookup_insert_other (acc : List (String × γ)) (e : String × γ)
    (k : String) (hne : e.1 ≠ k) :
    alLookup (insertEntry acc e) k = alLookup acc k := by
  induction acc with
  | nil => simp [insertEntry, alLookup, hne]
  | cons p rest ih =>
    by_cases hp : p.1 = e.1
    · rw [insertEntry_cons_eq p rest e hp]
      rw [alLookup_cons_ne hne, alLookup_replaceEntries rest e k hne,
        alLookup_cons_ne (hp ▸ hne)]
    · rw [insertEntry_cons_ne p rest e hp]
      by_cases hpk : p.1 = k
      · rw [alLookup_cons_eq hpk, alLookup_cons_eq hpk]
      · rw [alLookup_cons_ne hpk, alLookup_cons_ne hpk]
        exact ih

theorem lastValueFor_cons (k0 : String) (v0 : γ) (l : List (String × γ)) (k : String) :
    lastValueFor ((k0, v0) :: l) k =
      if k0 = k then
        match lastValueFor l k with
        | some v => some v
        | none => some v0
      else lastValueFor l k := by
  by_cases h : k0 = k
  · subst h
    rw [if_pos rfl]
    unfold lastValueFor
    have hstep : ((k0, v0) :: l).filter (fun p => decide (p.1 = k0)) =
        (k0, v0) :: l.filter (fun p => decide (p.1 = k0)) := by
      simp [List.filter_cons]
    rw [hstep]
    cases hfl : l.filter (fun p => decide (p.1 = k0)) with
    | nil => simp
    | cons q rest =>
      have hx : ∃ x, (q :: rest).getLast? = some x := by
        cases hgl : (q :: rest).getLast? with
        | some x => exact ⟨x, rfl⟩
        | none => simp at hgl
      obtain ⟨x, hx⟩ := hx
      rw [List.getLast?_cons_cons, hx]
      rfl
  · rw [if_neg h]
    unfold lastValueFor
    have hstep : ((k0, v0) :: l).filter (fun p => decide (p.1 = k)) =
        l.filter (fun p => decide (p.1 = k)) := by
      simp [List.filter_cons, h]
    rw [hstep]

theorem foldl_insertEntry_lookup (l : List (String × γ)) :
    ∀ (acc : List (String × γ)) (k : String),
      alLookup (l.foldl insertEntry acc) k =
        match lastValueFor l k with
        | some v => some v
        | none => alLookup acc k := by
  induction l with
  | nil =>
    intro acc k
    simp [lastValueFor]
  | cons e rest ih =>
    intro acc k
    obtain ⟨k0, v0⟩ := e
    rw [List.foldl_cons, ih (insertEntry acc (k0, v0)) k, lastValueFor_cons]
    by_cases h : k0 = k
    · rw [if_pos h]
      cases hlv : lastValueFor rest k with
      | some v => rfl
      | none =>
        subst h
        simpa using alLookup_insert_self acc k0 v0
    · rw [if_neg h]
      cases hlv : lastValueFor rest k with
      | some v => rfl
      | none => simpa using alLookup_insert_other acc (k0, v0) k (by simpa using h)

/-- A JS object maps each key to the value of its last source entry. -/
theorem fromEntries_lookup (l : List (String × γ)) (k : String) :
    alLookup (fromEntries l) k = lastValueFor l k := by
  unfold fromEntries
  rw [foldl_insertEntry_lookup l [] k]
  cases hlv : lastValueFor l k with
  | some v => rfl
  | none => rfl

theorem insertEntry_keys (acc : List (String × γ)) (e : String × γ) :
    (insertEntry acc e).map Prod.fst =
      if acc.any (fun q => decide (q.1 = e.1)) then acc.map Prod.fst
      else acc.map Prod.fst ++ [e.1] := by
  by_cases h : acc.any (fun q => decide (q.1 = e.1))
  · rw [if_pos h]
    unfold insertEntry
    rw [if_pos h, List.map_map]
    refine List.map_congr_left ?_
    intro q hq
    by_cases hq1 : q.1 = e.1 <;> simp [hq1]
  · rw [if_neg h]
    unfold insertEntry
    rw [if_neg h, List.map_append]
    rfl

theorem any_key_replace (acc : List (String × γ)) (e : String × γ) (k : String) :
    ((acc.map (fun q => if q.1 = e.1 then e else q)).any (fun q => decide (q.1 = k))) =
      acc.any (fun q => decide (q.1 = k)) := by
  induction acc with
  | nil => rfl
  | cons q rest ih =>
    simp only [List.map_cons, List.any_cons]
    by_cases hq : q.1 = e.1 <;> simp [hq, ih]

theorem any_key_append (acc : List (String × γ)) (k0 : String) (v0 : γ) (k : String) :
    ((acc ++ [(k0, v0)]).any (fun q => decide (q.1 = k))) =
      (acc.any (fun q => decide (q.1 = k)) || decide (k0 = k)) := by
  simp [List.any_append]

theorem filter_drop_ne (xs : List String) (p : String → Bool) (k0 : String)
    (hp : p k0 = false) :
    (xs.filter (fun x => !(decide (x = k0)))).filter p = xs.filter p := by
  induction xs with
  | nil => rfl
  | cons x rest ih =>
    by_cases hx : x = k0
    · subst hx
      rw [List.filter_cons, if_neg (by simp), List.filter_cons, if_neg (by simp [hp])]
      exact ih
    · rw [List.filter_cons, if_pos (by simp [hx])]
      by_cases hpx : p x = true
      · rw [List.filter_cons, if_pos hpx, List.filter_cons, if_pos hpx]
        exact congrArg (List.cons x) ih
      · rw [List.filter_cons, if_neg hpx, List.filter_cons, if_neg hpx]
        exact ih

theorem filter_pair (xs : List String) (p : String → Bool) (k0 : String) :
    xs.filter (fun x => p x && !(decide (x = k0))) =
      (xs.filter (fun x => !(decide (x = k0)))).filter p := by
  induction xs with
  | nil => rfl
  | cons x rest ih =>
    by_cases hx : x = k0
    · subst hx
      rw [List.filter_cons, if_neg (by simp), List.filter_cons, if_neg (by simp)]
      exact ih
    · by_cases hpx : p x = true
      · rw [List.filter_cons, if_pos (by simp [hpx, hx]),
          List.filter_cons, if_pos (by simp [hx]),
          List.filter_cons, if_pos hpx]
        exact congrArg (List.cons x) ih
      · rw [List.filter_cons, if_neg (by simp [Bool.and_eq_true, hpx]),
          List.filter_cons, if_pos (by simp [hx]),
          List.filter_cons, if_neg hpx]
        exact ih

theorem foldl_insertEntry_keys (l : List (String × γ)) :
    ∀ acc : List (String × γ),
      (l.foldl insertEntry acc).map Prod.fst =
        acc.map Prod.fst ++
          (firstDedup (l.map Prod.fst)).filter
            (fun k => !(acc.any (fun q => decide (q.1 = k)))) := by
  induction l with
  | nil => intro acc; simp [firstDedup]
  | cons e rest ih =>
    intro acc
    obtain ⟨k0, v0⟩ := e
    rw [List.foldl_cons, ih (insertEntry acc (k0, v0))]
    rw [insertEntry_keys]
    simp only [List.map_cons]
    rw [show firstDedup (k0 :: rest.map Prod.fst) =
        k0 :: (firstDedup (rest.map Prod.fst)).filter (fun x => !(decide (x = k0)))
      from rfl]
    by_cases h : acc.any (fun q => decide (q.1 = k0))
    · rw [if_pos h]
      rw [List.filter_cons]
      rw [if_neg (by simp [h])]
      have hpred : ∀ k, ((insertEntry acc (k0, v0)).any (fun q => decide (q.1 = k))) =
          acc.any (fun q => decide (q.1 = k)) := by
        intro k
        unfold insertEntry
        rw [if_pos h]
        exact any_key_replace acc (k0, v0) k
      have hcong : (firstDedup (rest.map Prod.fst)).filter
            (fun k => !((insertEntry acc (k0, v0)).any (fun q => decide (q.1 = k)))) =
          (firstDedup (rest.map Prod.fst)).filter
            (fun k => !(acc.any (fun q => decide (q.1 = k)))) := by
        refine List.filter_congr ?_
        intro k hk
        rw [hpred k]
      rw [hcong]
      rw [filter_drop_ne _ _ _ (by simp [h])]
    · rw [if_neg h]
      rw [List.filter_cons]
      rw [if_pos (by simp [h])]
      have hpred : ∀ k, ((insertEntry acc (k0, v0)).any (fun q => decide (q.1 = k))) =
          (acc.any (fun q => decide (q.1 = k)) || decide (k0 = k)) := by
        intro k
        unfold insertEntry
        rw [if_neg h]
        exact any_key_append acc k0 v0 k
      have hcong : (firstDedup (rest.map Prod.fst)).filter
            (fun k => !((insertEntry acc (k0, v0)).any (fun q => decide (q.1 = k)))) =
          (firstDedup (rest.map Prod.fst)).filter
            (fun k => (!(acc.any (fun q => decide (q.1 = k)))) && !(decide (k = k0))) := by
        refine List.filter_congr ?_
        intro k hk
        rw [hpred k]
        by_cases hk0 : k0 = k
        · subst hk0
          simp
        · simp [hk0, Ne.symm hk0]
      rw [hcong, filter_pair]
      simp

/-- The keys of a JS object are its entries' keys in first-occurrence
order, deduplicated. -/
theorem fromEntries_keys (l : List (String × γ)) :
    (fromEntries l).map Prod.fst = firstDedup (l.map Prod.fst) := by
  unfold fromEntries
  rw [foldl_insertEntry_keys l []]
  simp

theorem mem_insertEntry {acc : List (String × γ)} {e p : String × γ}
    (h : p ∈ insertEntry acc e) : p ∈ acc ∨ p = e := by
  unfold insertEntry at h
  by_cases ha : acc.any (fun q => decide (q.1 = e.1))
  · rw [if_pos ha] at h
    obtain ⟨q, hq, hqe⟩ := List.mem_map.mp h
    by_cases hq1 : q.1 = e.1
    · right
      rw [← hqe, if_pos hq1]
    · left
      rw [← hqe, if_neg hq1]
      exact hq
  · rw [if_neg ha] at h
    rcases List.mem_append.mp h with h2 | h2
    · exact Or.inl h2
    · exact Or.inr (by simpa using h2)

theorem mem_foldl_insertEntry : ∀ (l acc : List (String × γ)) (p : String × γ),
    p ∈ l.foldl insertEntry acc → p ∈ acc ∨ p ∈ l := by
  intro l
  induction l with
  | nil => intro acc p h; exact Or.inl h
  | cons e rest ih =>
    intro acc p h
    rw [List.foldl_cons] at h
    rcases ih (insertEntry acc e) p h with h2 | h2
    · rcases mem_insertEntry h2 with h3 | h3
      · exact Or.inl h3
      · exact Or.inr (by simp [h3])
    · exact Or.inr (by simp [h2])

/-- C6: the transformer is pure and positional — fiat codes keep the
source iteration order and pair with their `value` fields; crypto pairs
are positionally `(symbol, price)`; the symbol-to-metadata mapping gives
each symbol its last occurrence's metadata while keys keep
first-occurrence order; and every stored record is the enumerated-field
projection of some source row. -/
theorem c6_transformer_pure (data : List (String × FiatEntry α))
    (rows : List (CryptoRow α)) (sym : String) (i : Nat) :
    ((transformFiat data).map Prod.fst = data.map Prod.fst) ∧
    ((transformFiat data)[i]? = (data[i]?).map (fun p => (p.1, p.2.value))) ∧
    ((cryptoRatesOf rows)[i]? = (rows[i]?).map (fun c => (c.symbol, c.price))) ∧
    (alLookup (cryptoMetaOf rows) sym =
      ((rows.filter (fun c => decide (c.symbol = sym))).getLast?).map metaOf) ∧
    ((cryptoMetaOf rows).map Prod.fst = firstDedup (rows.map CryptoRow.symbol)) ∧
    (∀ p ∈ cryptoMetaOf rows, ∃ c ∈ rows, p = (c.symbol, metaOf c)) := by
  refine ⟨?_, ?_, ?_, ?_, ?_, ?_⟩
  · simp [transformFiat]
  · simp [transformFiat]
  · simp [cryptoRatesOf]
  · rw [cryptoMetaOf, fromEntries_lookup]
    unfold lastValueFor
    induction rows with
    | nil => rfl
    | cons c rest ih =>
      simp only [List.map_cons, List.filter_cons]
      by_cases hc : c.symbol = sym
      · simp only [hc, decide_True, if_true]
        cases hrest : rest.filter (fun c => decide (c.symbol = sym)) with
        | nil =>
          have : (rest.map (fun c => (c.symbol, metaOf c))).filter
              (fun p => decide (p.1 = sym)) = [] := by
            rw [List.filter_eq_nil_iff]
            intro a ha
            obtain ⟨c2, hc2, hc2a⟩ := List.mem_map.mp ha
            simp only [← hc2a, decide_eq_true_eq]
            intro hsym
            have : c2 ∈ rest.filter (fun c => decide (c.symbol = sym)) := by
              simp [List.mem_filter, hc2, hsym]
            rw [hrest] at this
            cases this
          simp [this]
        | cons q qrest =>
          have hne : rest.filter (fun c => decide (c.symbol = sym)) ≠ [] := by
            rw [hrest]
            simp
          have hne2 : (rest.map (fun c => (c.symbol, metaOf c))).filter
              (fun p => decide (p.1 = sym)) ≠ [] := by
            intro hempty
            have : q ∈ rest.filter (fun c => decide (c.symbol = sym)) := by
              rw [hrest]
              simp
            have hqmem := List.mem_filter.mp this
            have : (q.symbol, metaOf q) ∈ (rest.map (fun c => (c.symbol, metaOf c))).filter
                (fun p => decide (p.1 = sym)) := by
              rw [List.mem_filter]
              exact ⟨List.mem_map_of_mem _ hqmem.1, by simpa using hqmem.2⟩
            rw [hempty] at this
            cases this
          obtain ⟨y, ys, hys⟩ := List.exists_cons_of_ne_nil hne2
          rw [hys, List.getLast?_cons_cons, ← hys, List.getLast?_cons_cons, ← hrest]
          exact ih
      · simp only [hc, decide_False, if_false]
        exact ih
  · rw [cryptoMetaOf, fromEntries_keys, List.map_map]
    refine congrArg firstDedup ?_
    refine List.map_congr_left ?_
    intro c hc
    rfl
  · intro p hp
    rw [cryptoMetaOf, fromEntries] at hp
    rcases mem_foldl_insertEntry _ [] p hp with h | h
    · cases h
    · obtain ⟨c, hc, hcp⟩ := List.mem_map.mp h
      exact ⟨c, hc, hcp.symm⟩

/-- Witness for C6 on concrete rows with the symbol `BTC` duplicated:
the mapping keeps the second occurrence's metadata under the first
occurrence's position. -/
theorem c6_transformer_pure_witness :
    ((transformFiat fiatData0).map Prod.fst = fiatData0.map Prod.fst) ∧
    (alLookup (cryptoMetaOf rowsDup) "BTC" =
      ((rowsDup.filter (fun c => decide (c.symbol = "BTC"))).getLast?).map metaOf) ∧
    ((cryptoMetaOf rowsDup).map Prod.fst = firstDedup (rowsDup.map CryptoRow.symbol)) ∧
    (∃ c ∈ rowsDup, (("BTC", metaOf btcRowDup) : String × MetaRecord Int) =
      (c.symbol, metaOf c)) ∧
    alLookup (cryptoMetaOf rowsDup) "BTC" = some (metaOf btcRowDup) ∧
    (cryptoMetaOf rowsDup).map Prod.fst = ["BTC", "ETH"] := by
  have h := c6_transformer_pure fiatData0 rowsDup "BTC" 1
  refine ⟨h.1, h.2.2.2.1, h.2.2.2.2.1, ?_, by decide, by decide⟩
  exact h.2.2.2.2.2 ("BTC", metaOf btcRowDup) (by decide)

/-! ## Environment validation and pipeline gating (claims C8, C2, C10) -/

theorem runJob_missing_env {env : Env} (w : World α) (h : missingEnv env ≠ []) :
    runJob env w = some (missingRunOut env w) := by
  have hne : (missingEnv env).isEmpty = false := by
    cases hm : missingEnv env with
    | nil => exact absurd hm h
    | cons a l => rfl
  unfold runJob
  rw [if_pos hne]
  rfl

theorem missingEnv_characterization (env : Env) :
    (("PROJECT_ID" ∈ missingEnv env ↔ truthy env.PROJECT_ID = false) ∧
     ("APPWRITE_API_KEY" ∈ missingEnv env ↔ truthy env.APPWRITE_API_KEY = false) ∧
     ("RATES_API_KEY" ∈ missingEnv env ↔ truthy env.RATES_API_KEY = false) ∧
     ("RATES1_DATABASE_ID" ∈ missingEnv env ↔ truthy env.RATES1_DATABASE_ID = false) ∧
     ("RATES_COMBINED_COLLECTION_ID" ∈ missingEnv env ↔
       truthy env.RATES_COMBINED_COLLECTION_ID = false) ∧
     ("CRYPTOMETA_DATABASE_ID" ∈ missingEnv env ↔
       truthy env.CRYPTOMETA_DATABASE_ID = false) ∧
     ("CRYPTOMETA_COLLECTION_ID" ∈ missingEnv env ↔
       truthy env.CRYPTOMETA_COLLECTION_ID = false)) ∧
    ("CRYPTORANK_API_KEY" ∉ missingEnv env) ∧
    (missingEnv env = [] ↔
      (truthy env.PROJECT_ID = true ∧ truthy env.APPWRITE_API_KEY = true ∧
       truthy env.RATES_API_KEY = true ∧ truthy env.RATES1_DATABASE_ID = true ∧
       truthy env.RATES_COMBINED_COLLECTION_ID = true ∧
       truthy env.CRYPTOMETA_DATABASE_ID = true ∧
       truthy env.CRYPTOMETA_COLLECTION_ID = true)) := by
  unfold missingEnv
  split_ifs <;> simp_all

theorem runJob_not_missing {env : Env} {w : World α} {out : RunOut}
    (hm : missingEnv env = []) (hout : runJob env w = some out) :
    ∀ names, out.result ≠ .missingEnvError names := by
  intro names
  unfold runJob at hout
  rw [hm] at hout
  simp only [List.isEmpty_nil] at hout
  rw [if_neg (by simp)] at hout
  repeat' split at hout
  all_goals
    first
      | exact Option.noConfusion hout
      | (injection hout with h
         subst h
         simp)

/-- C8: a run with any of the seven required environment values missing
(absent or empty) returns the structured failure listing exactly the
missing names, makes no network request and leaves both stores untouched;
the crypto API key is never among the required names, and when all seven
are present the missing-environment failure cannot occur. -/
theorem c8_env_fail_fast (env : Env) (w : World α) :
    (missingEnv env ≠ [] → runJob env w = some (missingRunOut env w)) ∧
    (("PROJECT_ID" ∈ missingEnv env ↔ truthy env.PROJECT_ID = false) ∧
     ("APPWRITE_API_KEY" ∈ missingEnv env ↔ truthy env.APPWRITE_API_KEY = false) ∧
     ("RATES_API_KEY" ∈ missingEnv env ↔ truthy env.RATES_API_KEY = false) ∧
     ("RATES1_DATABASE_ID" ∈ missingEnv env ↔ truthy env.RATES1_DATABASE_ID = false) ∧
     ("RATES_COMBINED_COLLECTION_ID" ∈ missingEnv env ↔
       truthy env.RATES_COMBINED_COLLECTION_ID = false) ∧
     ("CRYPTOMETA_DATABASE_ID" ∈ missingEnv env ↔
       truthy env.CRYPTOMETA_DATABASE_ID = false) ∧
     ("CRYPTOMETA_COLLECTION_ID" ∈ missingEnv env ↔
       truthy env.CRYPTOMETA_COLLECTION_ID = false)) ∧
    ("CRYPTORANK_API_KEY" ∉ missingEnv env) ∧
    (missingEnv env = [] → ∀ out, runJob env w = some out →
      ∀ names, out.result ≠ .missingEnvError names) := by
  refine ⟨fun h => runJob_missing_env w h, (missingEnv_characterization env).1,
    (missingEnv_characterization env).2.1, ?_⟩
  intro hm out hout
  exact runJob_not_missing hm hout

/-- Witness for C8: an environment missing `PROJECT_ID` (absent) and
`CRYPTOMETA_COLLECTION_ID` (empty string) fails fast listing exactly
those two, while an environment missing only the crypto API key does
not. -/
theorem c8_env_fail_fast_witness :
    missingEnv envMissingSome = ["PROJECT_ID", "CRYPTOMETA_COLLECTION_ID"] ∧
    runJob envMissingSome worldOk = some (missingRunOut envMissingSome worldOk) ∧
    (missingRunOut envMissingSome worldOk).result =
      .missingEnvError ["PROJECT_ID", "CRYPTOMETA_COLLECTION_ID"] ∧
    (missingRunOut envMissingSome worldOk).networkCalls = 0 ∧
    ("CRYPTORANK_API_KEY" ∉ missingEnv envMissingSome) ∧
    missingEnv envNoCryptoKey = [] := by
  have h := (c8_env_fail_fast envMissingSome worldOk).1 (by decide)
  exact ⟨by decide, h, by decide, by decide,
    (c8_env_fail_fast envMissingSome worldOk).2.2.1, by decide⟩

theorem pair_mem_iff {δ : Type} {fr : List (String × δ)} {c : String} :
    (∃ p ∈ fr, p.1 = c) ↔ ∃ v, (c, v) ∈ fr := by
  constructor
  · rintro ⟨⟨c2, v⟩, hmem, h1⟩
    simp only at h1
    subst h1
    exact ⟨v, hmem⟩
  · rintro ⟨v, hv⟩
    exact ⟨(c, v), hv, rfl⟩

theorem absentCode_iff {δ : Type} (fr : List (String × δ)) (c : String) :
    ((!(fr.any (fun p => decide (p.1 = c)))) = true) ↔ ¬∃ v, (c, v) ∈ fr := by
  constructor
  · intro h hex
    obtain ⟨v, hv⟩ := hex
    have hany : fr.any (fun p => decide (p.1 = c)) = true :=
      List.any_eq_true.mpr ⟨(c, v), hv, by simp⟩
    rw [hany] at h
    cases h
  · intro h
    cases hb : fr.any (fun p => decide (p.1 = c)) with
    | false => rfl
    | true =>
      obtain ⟨p, hpmem, hp1⟩ := List.any_eq_true.mp hb
      rw [decide_eq_true_eq] at hp1
      exact absurd (pair_mem_iff.mp ⟨p, hpmem, hp1⟩) h

theorem missingFiatOf_ne_nil_iff {δ : Type} (fr : List (String × δ)) :
    missingFiatOf fr ≠ [] ↔ ∃ c ∈ mustHaveFiat, ¬∃ v, (c, v) ∈ fr := by
  constructor
  · intro hne
    obtain ⟨c, hc⟩ := List.exists_mem_of_ne_nil _ hne
    obtain ⟨hcm, hcp⟩ := List.mem_filter.mp hc
    exact ⟨c, hcm, (absentCode_iff fr c).mp hcp⟩
  · rintro ⟨c, hc, hv⟩
    intro hnil
    have hcm : c ∈ missingFiatOf fr :=
      List.mem_filter.mpr ⟨hc, (absentCode_iff fr c).mpr hv⟩
    rw [hnil] at hcm
    cases hcm

theorem hasBTCOf_iff {δ : Type} (cr : List (String × δ)) :
    hasBTCOf cr = true ↔ ∃ pr, ("BTC", pr) ∈ cr := by
  rw [hasBTCOf, List.any_eq_true]
  constructor
  · rintro ⟨p, hp, h1⟩
    rw [decide_eq_true_eq] at h1
    exact pair_mem_iff.mp ⟨p, hp, h1⟩
  · intro h
    obtain ⟨p, hp, h1⟩ := pair_mem_iff.mpr h
    exact ⟨p, hp, by simp [h1]⟩

/-- C2: given a complete environment and both fetches succeeding, the run
returns the sanity-check failure with both stores untouched exactly when
some required fiat code is absent or no BTC pair exists; otherwise it
reaches the upsert stage. -/
theorem c2_sanity_gate (env : Env) (w : World α) (out : RunOut)
    (fd : List (String × FiatEntry α)) (cryptoRaw : List (CryptoRow α))
    (offs : List Nat)
    (hm : missingEnv env = [])
    (hfiat : w.fiatResult = .ok fd)
    (hcrypto : fetchCryptoMarketData env.CRYPTORANK_API_KEY env.CRYPTORANK_MAX_PAGES
        w.cryptoPages w.fuel = some (.ok cryptoRaw, offs))
    (hrun : runJob env w = some out) :
    ((missingFiatOf (transformFiat fd) ≠ [] ∨
        hasBTCOf (cryptoRatesOf cryptoRaw) = false) ↔
      (out.result = .sanityFailed (missingFiatOf (transformFiat fd))
          (hasBTCOf (cryptoRatesOf cryptoRaw)) ∧
        out.ratesStore = w.ratesStore ∧ out.metaStore = w.metaStore)) ∧
    ((missingFiatOf (transformFiat fd) = [] ∧
        hasBTCOf (cryptoRatesOf cryptoRaw) = true) → out.reachedUpsert = true) ∧
    (missingFiatOf (transformFiat fd) ≠ [] ↔
      ∃ c ∈ mustHaveFiat, ¬∃ v, (c, v) ∈ transformFiat fd) ∧
    (hasBTCOf (cryptoRatesOf cryptoRaw) = true ↔
      ∃ pr, ("BTC", pr) ∈ cryptoRatesOf cryptoRaw) := by
  have hbr : (missingFiatOf (transformFiat fd)).isEmpty = false ↔
      missingFiatOf (transformFiat fd) ≠ [] := by
    cases h : missingFiatOf (transformFiat fd) <;> simp
  suffices hmain :
      ((missingFiatOf (transformFiat fd) ≠ [] ∨
          hasBTCOf (cryptoRatesOf cryptoRaw) = false) ↔
        (out.result = .sanityFailed (missingFiatOf (transformFiat fd))
            (hasBTCOf (cryptoRatesOf cryptoRaw)) ∧
          out.ratesStore = w.ratesStore ∧ out.metaStore = w.metaStore)) ∧
      ((missingFiatOf (transformFiat fd) = [] ∧
          hasBTCOf (cryptoRatesOf cryptoRaw) = true) → out.reachedUpsert = true) by
    exact ⟨hmain.1, hmain.2, missingFiatOf_ne_nil_iff _, hasBTCOf_iff _⟩
  unfold runJob at hrun
  rw [hm] at hrun
  simp only [List.isEmpty_nil] at hrun
  rw [if_neg (by simp)] at hrun
  rw [hcrypto] at hrun
  simp only [hfiat] at hrun
  by_cases hsan : (missingFiatOf (transformFiat fd)).isEmpty = false ∨
      hasBTCOf (cryptoRatesOf cryptoRaw) = false
  · rw [if_pos hsan] at hrun
    injection hrun with h
    subst h
    constructor
    · constructor
      · intro _
        exact ⟨rfl, rfl, rfl⟩
      · intro _
        rcases hsan with h | h
        · exact Or.inl (hbr.mp h)
        · exact Or.inr h
    · rintro ⟨h1, h2⟩
      exfalso
      rcases hsan with h | h
      · rw [h1] at h
        simp at h
      · rw [h2] at h
        cases h
  · have hnclaim : ¬(missingFiatOf (transformFiat fd) ≠ [] ∨
        hasBTCOf (cryptoRatesOf cryptoRaw) = false) :=
      fun hc => hsan (hc.imp hbr.mpr id)
    rw [if_neg hsan] at hrun
    split at hrun
    · injection hrun with h
      subst h
      exact ⟨⟨fun h => absurd h hnclaim, fun hc => absurd hc.1 (by simp)⟩,
        fun _ => rfl⟩
    · split at hrun
      · split at hrun
        · injection hrun with h
          subst h
          exact ⟨⟨fun h => absurd h hnclaim, fun hc => absurd hc.1 (by simp)⟩,
            fun _ => rfl⟩
        · injection hrun with h
          subst h
          exact ⟨⟨fun h => absurd h hnclaim, fun hc => absurd hc.1 (by simp)⟩,
            fun _ => rfl⟩
      · injection hrun with h
        subst h
        exact ⟨⟨fun h => absurd h hnclaim, fun hc => absurd hc.1 (by simp)⟩,
          fun _ => rfl⟩

/-- Witness for C2: with `RUB` absent from the fiat payload the run stops
at the sanity check, reporting exactly `["RUB"]` and leaving both stores
empty. -/
theorem c2_sanity_gate_witness :
    runJob envAll worldNoRub = some sanOut ∧
    missingFiatOf (transformFiat fiatDataNoRub) = ["RUB"] ∧
    (sanOut.result = .sanityFailed (missingFiatOf (transformFiat fiatDataNoRub))
        (hasBTCOf (cryptoRatesOf [btcRow])) ∧
      sanOut.ratesStore = worldNoRub.ratesStore ∧
      sanOut.metaStore = worldNoRub.metaStore) := by
  have h := c2_sanity_gate envAll worldNoRub sanOut fiatDataNoRub [btcRow] [0]
    (by decide) (by decide) (by decide) (by decide)
  exact ⟨by decide, by decide, h.1.mp (Or.inl (by decide))⟩

/-! ## Metadata upsert reachability (claim C10) -/

theorem upsertMeta_ok_mem {s : Store β} {d : String} {b : β} {s2 : Store β}
    (h : upsertMeta s d b = .ok s2) :
    ∃ doc ∈ s2.docs, doc.id = d ∧ doc.date = d := by
  by_cases hw : s.writeOk = true
  · by_cases hid : hasId s d = true
    · simp only [upsertMeta] at h
      rw [createDocument_exists _ hw hid] at h
      rw [updateDocument_ok _ hw hid] at h
      injection h with h2
      subst h2
      obtain ⟨x, hx, hxd⟩ := hasId_true_iff.mp hid
      refine ⟨{ id := x.id, date := d, body := b }, ?_, hxd, rfl⟩
      show { id := x.id, date := d, body := b } ∈ replaceDoc s.docs d ⟨d, b⟩
      unfold replaceDoc
      have : (fun y => if y.id = d then
          ({ id := y.id, date := d, body := b } : Doc β) else y) x =
          { id := x.id, date := d, body := b } := by
        simp [hxd]
      exact this ▸ List.mem_map_of_mem _ hx
    · simp only [upsertMeta] at h
      rw [createDocument_ok _ hw (by simpa using hid)] at h
      injection h with h2
      subst h2
      exact ⟨{ id := d, date := d, body := b }, by simp, rfl, rfl⟩
  · have hwf : s.writeOk = false := by simpa using hw
    simp [upsertMeta, createDocument, updateDocument, hwf] at h

/-- C10: the `skip cryptoMeta upsert` branch is unreachable — every
terminating run leaves it untaken, because reaching the upsert stage
requires the sanity check to have seen a BTC pair, which forces a
non-empty crypto row list; consequently every successful run has written
a metadata document keyed by the date string. -/
theorem c10_meta_skip_unreachable (env : Env) (w : World α) (out : RunOut)
    (hrun : runJob env w = some out) :
    out.metaSkipped = false ∧
    (∀ rid, out.result = .success rid →
      ∃ doc ∈ out.metaStore.docs, doc.id = w.dateStr ∧ doc.date = w.dateStr) := by
  unfold runJob at hrun
  by_cases hm : (missingEnv env).isEmpty = false
  · rw [if_pos hm] at hrun
    injection hrun with h
    subst h
    exact ⟨rfl, fun rid hrid => by simp at hrid⟩
  · rw [if_neg hm] at hrun
    dsimp only at hrun
    repeat' split at hrun
    all_goals
      first
        | exact Option.noConfusion hrun
        | (injection hrun with h
           subst h
           refine ⟨rfl, fun rid hrid => ?_⟩
           first
             | (rename_i x ms1 hmeta
                exact upsertMeta_ok_mem hmeta)
             | simp at hrid)
        | (injection hrun with h
           subst h
           exfalso
           simp_all [hasBTCOf, cryptoRatesOf])

/-- Witness for C10: a successful concrete run has the skip branch
untaken and a metadata document for the day. -/
theorem c10_meta_skip_unreachable_witness :
    runJob envAll worldOk = some okRunOut ∧
    okRunOut.metaSkipped = false ∧
    (∃ doc ∈ okRunOut.metaStore.docs,
      doc.id = worldOk.dateStr ∧ doc.date = worldOk.dateStr) := by
  have hrun : runJob envAll worldOk = some okRunOut := by decide
  have h := c10_meta_skip_unreachable envAll worldOk okRunOut hrun
  exact ⟨hrun, h.1, h.2 "r1" (by decide)⟩

end FiatCron